import Mathlib

/-!
Verification of the v85 CSV ingestion engine.

This file is a shallow embedding of the reconciliation/ingestion core of the
repository:

* `Databas/import_csv_to_db.py` — file-name recognition (`CURRENT_RE`,
  `HISTORY_RE`), the legacy alias (`name.replace("v85_", "v86_", 1)`),
  row normalization, delete-by-attribution, the SQLite upsert for the
  `v85` table (`INSERT ... ON CONFLICT(datum, avd, hastnamn) DO UPDATE`),
  the unconditional insert into `v85_history`, and the per-run transaction
  of `main` (commit on success, rollback on any exception).
* `get_v85_history.py` — `collect_history_rows`: grouping fetched results
  per horse, Python's stable `list.sort(key=datum, reverse=True)`, the
  per-horse cap, and the alphabetical output order.

Tables are lists of records (SQLite row order: updates happen in place,
inserts append).  Raw CSV rows are association lists from column label to
`Option String` (`csv.DictReader` yields strings, with `None` for short
rows; `dict.get` returns `None` for absent labels).  Python's `x or ""`
on such a value yields `""` for `None` and for the empty string, hence
`rawGet` below; `str(...)` applied to these values is the identity.
-/

namespace V85

/-- One row of the `v85` (Current) table.  Column names follow the SQLite
schema in the INSERT statement of `load_current`. -/
structure CurrentRow where
  datum : String
  avd : String
  startnummer : String
  hastnamn : String
  kusk : String
  tranare : String
  v85_procent : String
  v_odds : String
  vagn : String
  source_file : String
  deriving DecidableEq, Repr

/-- One row of the `v85_history` table, following the INSERT statement of
`load_history`. -/
structure HistoryRow where
  datum : String
  avd : String
  hastnamn : String
  bana : String
  kusk : String
  placering : String
  distans_spor : String
  km_tid : String
  skor : String
  odds : String
  pris : String
  vagn : String
  source_file : String
  deriving DecidableEq, Repr

/-- A raw CSV row as produced by `csv.DictReader`: an association list from
column label to value; a value of `none` models Python `None` (short row). -/
def RawRow := List (String × Option String)

/-- `r.get(label) or ""`: absent label or `None` value or empty string all
give `""`; otherwise the stored text. -/
def rawGet (r : RawRow) (k : String) : String :=
  match List.lookup k r with
  | some (some v) => v
  | some none => ""
  | none => ""

/-! ## Naming Resolver

`CURRENT_RE = ^v85_(\d{8})_([1-8])\.csv$` and
`HISTORY_RE = ^v85_history_(\d{8})_([1-8])\.csv$`, embedded as anchored
parsers over the name's character list, with Python's `re` semantics for
`str` patterns: `\d` matches any Unicode decimal digit (category Nd), and
`$` matches at the end of the string or just before one newline at the end
of the string. -/

/-- The code-point ranges of the Unicode decimal digits (category Nd):
exactly the characters Python's `\d` matches in a `str` pattern. -/
def ndRanges : List (Nat × Nat) :=
  [(48, 57), (1632, 1641), (1776, 1785), (1984, 1993), (2406, 2415),
   (2534, 2543), (2662, 2671), (2790, 2799), (2918, 2927), (3046, 3055),
   (3174, 3183), (3302, 3311), (3430, 3439), (3558, 3567), (3664, 3673),
   (3792, 3801), (3872, 3881), (4160, 4169), (4240, 4249), (6112, 6121),
   (6160, 6169), (6470, 6479), (6608, 6617), (6784, 6793), (6800, 6809),
   (6992, 7001), (7088, 7097), (7232, 7241), (7248, 7257), (42528, 42537),
   (43216, 43225), (43264, 43273), (43472, 43481), (43504, 43513),
   (43600, 43609), (44016, 44025), (65296, 65305), (66720, 66729),
   (68912, 68921), (69734, 69743), (69872, 69881), (69942, 69951),
   (70096, 70105), (70384, 70393), (70736, 70745), (70864, 70873),
   (71248, 71257), (71360, 71369), (71472, 71481), (71904, 71913),
   (72016, 72025), (72784, 72793), (73040, 73049), (73120, 73129),
   (92768, 92777), (92864, 92873), (93008, 93017), (120782, 120831),
   (123200, 123209), (123632, 123641), (125264, 125273), (130032, 130041)]

/-- `\d`: any Unicode decimal digit. -/
def isPyDigit (c : Char) : Bool :=
  ndRanges.any (fun p => p.1 ≤ c.toNat && c.toNat ≤ p.2)

/-- `[1-8]` — the division character class. -/
def isDivision (c : Char) : Bool := '1' ≤ c && c ≤ '8'

/-- Strip `pat` from the front of `l`, or fail. -/
def stripFront (pat l : List Char) : Option (List Char) :=
  if pat.isPrefixOf l then some (l.drop pat.length) else none

/-- The shared tail `(\d{8})_([1-8])\.csv$` of both regexes: exactly eight
Unicode decimal digits, an underscore, one division digit, and the literal
`.csv`, ending the name or followed only by one final newline (the two ways
Python's `$` can match).  Returns the date digits and the division
character. -/
def parseDateDiv (l : List Char) : Option (List Char × Char) :=
  match l with
  | [d1, d2, d3, d4, d5, d6, d7, d8, '_', a, '.', 'c', 's', 'v'] =>
    if (isPyDigit d1 && isPyDigit d2 && isPyDigit d3 && isPyDigit d4 &&
        isPyDigit d5 && isPyDigit d6 && isPyDigit d7 && isPyDigit d8) &&
        isDivision a
    then some ([d1, d2, d3, d4, d5, d6, d7, d8], a)
    else none
  | [d1, d2, d3, d4, d5, d6, d7, d8, '_', a, '.', 'c', 's', 'v', '\n'] =>
    if (isPyDigit d1 && isPyDigit d2 && isPyDigit d3 && isPyDigit d4 &&
        isPyDigit d5 && isPyDigit d6 && isPyDigit d7 && isPyDigit d8) &&
        isDivision a
    then some ([d1, d2, d3, d4, d5, d6, d7, d8], a)
    else none
  | _ => none

/-- `CURRENT_RE.match(name)`: the captured groups (date digits, division). -/
def matchCurrentName (s : String) : Option (List Char × Char) :=
  (stripFront ['v', '8', '5', '_'] s.toList).bind parseDateDiv

/-- `HISTORY_RE.match(name)`: the captured groups (date digits, division). -/
def matchHistoryName (s : String) : Option (List Char × Char) :=
  (stripFront "v85_history_".toList s.toList).bind parseDateDiv

/-- `yyyymmdd_to_iso`: `f"{d[0:4]}-{d[4:6]}-{d[6:8]}"` by pure slicing. -/
def yyyymmdd_to_iso (d : List Char) : String :=
  String.mk (d.take 4 ++ '-' :: ((d.drop 4).take 2 ++ '-' :: (d.drop 6).take 2))

/-- Python `s.replace(pat, rep, 1)` for a nonempty `pat`: replace the first
occurrence of `pat`, leaving the rest unchanged; no occurrence leaves `s`
unchanged. -/
def replaceFirst (pat rep : List Char) : List Char → List Char
  | [] => []
  | c :: cs =>
    if pat.isPrefixOf (c :: cs) then rep ++ (c :: cs).drop pat.length
    else c :: replaceFirst pat rep cs

/-- `p.name.replace("v85_", "v86_", 1)` — legacy alias of a Current file. -/
def legacyCurrentName (s : String) : String :=
  String.mk (replaceFirst ['v', '8', '5', '_'] ['v', '8', '6', '_'] s.toList)

/-- `p.name.replace("v85_history_", "v86_history_", 1)` — legacy alias of a
History file. -/
def legacyHistoryName (s : String) : String :=
  String.mk (replaceFirst "v85_history_".toList "v86_history_".toList s.toList)

/-- Python `str.strip()`: remove leading and trailing whitespace. -/
def pyStrip (s : String) : String :=
  String.mk (((s.toList.dropWhile Char.isWhitespace).reverse.dropWhile
    Char.isWhitespace).reverse)

/-! ## Row Normalizer -/

/-- The Current-row normalization inside `load_current`'s INSERT: every field
is `(r.get(label) or "").strip()`; `datum`/`avd` come from the file name and
`source_file` is the processed file's own name. -/
def normCurrentRow (datum avd srcName : String) (r : RawRow) : CurrentRow :=
  { datum := datum
    avd := avd
    startnummer := pyStrip (rawGet r "startnummer")
    hastnamn := pyStrip (rawGet r "hästnamn")
    kusk := pyStrip (rawGet r "kusk")
    tranare := pyStrip (rawGet r "tränare")
    v85_procent := pyStrip (rawGet r "v85%")
    v_odds := pyStrip (rawGet r "v-odds")
    vagn := pyStrip (rawGet r "vagn")
    source_file := srcName }

/-- The History-row normalization inside `load_history`'s INSERT.  The
`str(...)` coercions around `placering`, `odds` and `pris` are the identity
on CSV text values, so each field is again `(r.get(label) or "").strip()`;
`avd` comes from the file name, `datum` from the row itself. -/
def normHistoryRow (avd srcName : String) (r : RawRow) : HistoryRow :=
  { datum := pyStrip (rawGet r "datum")
    avd := avd
    hastnamn := pyStrip (rawGet r "hästnamn")
    bana := pyStrip (rawGet r "bana")
    kusk := pyStrip (rawGet r "kusk")
    placering := pyStrip (rawGet r "placering")
    distans_spor := pyStrip (rawGet r "distans:spår")
    km_tid := pyStrip (rawGet r "KM-tid")
    skor := pyStrip (rawGet r "skor")
    odds := pyStrip (rawGet r "odds")
    pris := pyStrip (rawGet r "pris")
    vagn := pyStrip (rawGet r "vagn")
    source_file := srcName }

/-! ## Reconciliation Engine: per-file operations -/

/-- The natural key of a `v85` row: the conflict target
`(datum, avd, hastnamn)` of the upsert. -/
def currentKey (x : CurrentRow) : String × String × String :=
  (x.datum, x.avd, x.hastnamn)

/-- `DELETE FROM v85 WHERE source_file IN (?, ?)` (generalized to a list of
candidate names). -/
def clearCurrent (names : List String) (t : List CurrentRow) : List CurrentRow :=
  t.filter (fun x => decide (x.source_file ∉ names))

/-- `DELETE FROM v85_history WHERE source_file IN (?, ?)`. -/
def clearHistory (names : List String) (t : List HistoryRow) : List HistoryRow :=
  t.filter (fun x => decide (x.source_file ∉ names))

/-- `ON CONFLICT(datum, avd, hastnamn) DO UPDATE SET ...`: the conflicting
row keeps its key columns and takes every non-key attribute and
`source_file` from the excluded (new) row. -/
def overwriteCurrent (old new : CurrentRow) : CurrentRow :=
  { old with
    startnummer := new.startnummer
    kusk := new.kusk
    tranare := new.tranare
    v85_procent := new.v85_procent
    v_odds := new.v_odds
    vagn := new.vagn
    source_file := new.source_file }

/-- The SQLite upsert: if some stored row conflicts on the key, update it in
place; otherwise append the new row. -/
def upsertCurrent (t : List CurrentRow) (r : CurrentRow) : List CurrentRow :=
  if t.any (fun x => decide (currentKey x = currentKey r)) then
    t.map (fun x => if currentKey x = currentKey r then overwriteCurrent x r else x)
  else
    t ++ [r]

/-- The body of `load_current`'s per-file loop: recognize the name, compute
date/division/legacy alias, delete rows attributed to the name pair, then
upsert every normalized row in order.  Unrecognized names never reach the
loop; for completeness they leave the table unchanged. -/
def load_current_file (t : List CurrentRow) (name : String) (rows : List RawRow) :
    List CurrentRow :=
  match matchCurrentName name with
  | some (d, a) =>
    let datum := yyyymmdd_to_iso d
    let avd := String.mk [a]
    let base := clearCurrent [name, legacyCurrentName name] t
    (rows.map (normCurrentRow datum avd name)).foldl upsertCurrent base
  | none => t

/-- The body of `load_history`'s per-file loop: recognize the name, delete
rows attributed to the name pair, then insert every normalized row
unconditionally (append). -/
def load_history_file (t : List HistoryRow) (name : String) (rows : List RawRow) :
    List HistoryRow :=
  match matchHistoryName name with
  | some (_, a) =>
    let avd := String.mk [a]
    let base := clearHistory [name, legacyHistoryName name] t
    base ++ rows.map (normHistoryRow avd name)
  | none => t

/-! ## Stable sorting

Python's `sorted` / `list.sort` are stable.  A stable sort is uniquely
determined by its strict comes-before comparator, so we model it by stable
insertion sort: `x` is inserted after every element strictly before it and
before the first element not strictly before it (hence after no equal
element that was earlier in the input — processing the input right to
left keeps equals in input order). -/

/-- Insert `x` after every `y` with `lt y x` (y strictly before x). -/
def insertLt {α : Type} (lt : α → α → Bool) (x : α) : List α → List α
  | [] => [x]
  | y :: ys => if lt y x then y :: insertLt lt x ys else x :: y :: ys

/-- Stable sort by the strict comes-before comparator `lt`. -/
def sortLt {α : Type} (lt : α → α → Bool) (l : List α) : List α :=
  l.foldr (insertLt lt) []

/-! ## Directory-level run (`load_current`, `load_history`, `main`)

A directory entry carries the name, whether it is a regular file
(`p.is_file()`), and the result of reading it as a CSV with a header:
`some rows` if `csv.DictReader` succeeds, `none` if reading raises. -/

structure DirEntry where
  name : String
  isFile : Bool
  content : Option (List RawRow)

/-- `sorted(p for p in csv_dir.iterdir() if p.is_file() and CURRENT_RE.match(p.name))`. -/
def currentFilesOf (dir : List DirEntry) : List DirEntry :=
  sortLt (fun p q => decide (p.name < q.name))
    (dir.filter (fun p => p.isFile && (matchCurrentName p.name).isSome))

/-- `sorted(p for p in csv_dir.iterdir() if p.is_file() and HISTORY_RE.match(p.name))`. -/
def historyFilesOf (dir : List DirEntry) : List DirEntry :=
  sortLt (fun p q => decide (p.name < q.name))
    (dir.filter (fun p => p.isFile && (matchHistoryName p.name).isSome))

/-- The loop of `load_current` over the selected files, threading the table
and the row counter; a file whose content cannot be read as a CSV raises,
surfacing the offending file's name. -/
def runCurrentFiles (st : List CurrentRow × Nat) :
    List DirEntry → Except String (List CurrentRow × Nat)
  | [] => .ok st
  | p :: ps =>
    match p.content with
    | none => .error p.name
    | some rows =>
      runCurrentFiles (load_current_file st.1 p.name rows, st.2 + rows.length) ps

/-- The loop of `load_history` over the selected files. -/
def runHistoryFiles (st : List HistoryRow × Nat) :
    List DirEntry → Except String (List HistoryRow × Nat)
  | [] => .ok st
  | p :: ps =>
    match p.content with
    | none => .error p.name
    | some rows =>
      runHistoryFiles (load_history_file st.1 p.name rows, st.2 + rows.length) ps

/-- `load_current(con, csv_dir)`: returns the updated table, the
processed-file count `len(files)` and the imported-row count. -/
def load_current (t : List CurrentRow) (dir : List DirEntry) :
    Except String (List CurrentRow × Nat × Nat) :=
  (runCurrentFiles (t, 0) (currentFilesOf dir)).map
    (fun st => (st.1, (currentFilesOf dir).length, st.2))

/-- `load_history(con, csv_dir)`. -/
def load_history (t : List HistoryRow) (dir : List DirEntry) :
    Except String (List HistoryRow × Nat × Nat) :=
  (runHistoryFiles (t, 0) (historyFilesOf dir)).map
    (fun st => (st.1, (historyFilesOf dir).length, st.2))

/-- The persistent store: the two tables of the SQLite database. -/
structure DB where
  v85 : List CurrentRow
  v85_history : List HistoryRow
  deriving DecidableEq, Repr

/-- Counters reported by `main`: current files, current rows, history
files, history rows. -/
structure RunStats where
  curFiles : Nat
  curRows : Nat
  histFiles : Nat
  histRows : Nat
  deriving DecidableEq, Repr

/-- The body of `main`'s `with sqlite3.connect(...)` block: `load_current`,
then (unless `--skip-history`) `load_history`; any exception aborts the
whole run. -/
def runBody (db : DB) (dir : List DirEntry) (skipHistory : Bool) :
    Except String (DB × RunStats) := do
  let (cur, cf, cr) ← load_current db.v85 dir
  if skipHistory then
    pure ({ db with v85 := cur }, ⟨cf, cr, 0, 0⟩)
  else do
    let (hist, hf, hr) ← load_history db.v85_history dir
    pure ({ v85 := cur, v85_history := hist }, ⟨cf, cr, hf, hr⟩)

/-- `main`'s effect on the store: the connection context manager commits the
transaction when the body succeeds and rolls it back when it raises, so on
any error the store is unchanged. -/
def mainRun (db : DB) (dir : List DirEntry) (skipHistory : Bool) : DB :=
  match runBody db dir skipHistory with
  | .ok (db', _) => db'
  | .error _ => db

/-! ## Retention Policy (`collect_history_rows` in `get_v85_history.py`)

One fetched result record per past race.  The excluded formatting helpers
(`fmt_driver`, `fmt_km_time`, ...) are interface collaborators returning
text; their outputs appear here as the record's textual fields, and
`rec.get("date", "")` as `date`. -/

structure RecOut where
  date : String
  bana : String
  kusk : String
  placering : String
  distansSpor : String
  kmTid : String
  skor : String
  odds : String
  pris : String
  vagn : String
  deriving DecidableEq, Repr

/-- One output CSV row of the history collector. -/
structure HistOutRow where
  hastnamn : String
  datum : String
  bana : String
  kusk : String
  placering : String
  distansSpor : String
  kmTid : String
  skor : String
  odds : String
  pris : String
  vagn : String
  deriving DecidableEq, Repr

/-- One start of the chosen race: the horse's name and id and the fetched
result set for that horse (`fetch_json(HORSE_RESULTS_URL...)`, an external
collaborator, modeled as data). -/
structure StartEntry where
  horseName : String
  horseId : Option Nat
  results : List RecOut
  deriving Repr

/-- `if not horse_id: continue` — Python falsiness: absent or zero id. -/
def validId : Option Nat → Bool
  | some i => i != 0
  | none => false

/-- The effective horse name: `(horse.get("name") or "").strip()`, with the
fallback `f"horse_{horse_id}"` when it is empty and the id is `i`. -/
def effName (s : StartEntry) (i : Nat) : String :=
  if pyStrip s.horseName = "" then "horse_" ++ toString i else pyStrip s.horseName

/-- The row dict built for one fetched record of horse `h`. -/
def buildRow (h : String) (rec : RecOut) : HistOutRow :=
  { hastnamn := h
    datum := rec.date
    bana := rec.bana
    kusk := rec.kusk
    placering := rec.placering
    distansSpor := rec.distansSpor
    kmTid := rec.kmTid
    skor := rec.skor
    odds := rec.odds
    pris := rec.pris
    vagn := rec.vagn }

/-- `horse_rows.sort(key=lambda r: r["datum"], reverse=True)` — stable sort,
newest datum first, ties in input order. -/
def sortByDatumDesc (l : List HistOutRow) : List HistOutRow :=
  sortLt (fun a b => decide (b.datum < a.datum)) l

/-- `by_horse[horse_name] = ...`: Python dict assignment on an association
list — overwrite the value if the key exists, else append the binding. -/
def dictSet (k : String) (v : List HistOutRow)
    (d : List (String × List HistOutRow)) : List (String × List HistOutRow) :=
  if d.any (fun e => decide (e.1 = k)) then
    d.map (fun e => if e.1 = k then (k, v) else e)
  else
    d ++ [(k, v)]

/-- The per-start step of `collect_history_rows`: skip falsy ids; otherwise
build the horse's rows, sort newest-first, keep at most `maxN`, and store
them under the effective horse name. -/
def collectStep (maxN : Nat) (d : List (String × List HistOutRow))
    (s : StartEntry) : List (String × List HistOutRow) :=
  match s.horseId with
  | some i =>
    if i != 0 then
      let name := effName s i
      dictSet name ((sortByDatumDesc (s.results.map (buildRow name))).take maxN) d
    else d
  | none => d

/-- `collect_history_rows(race, max_history_per_horse)`: build `by_horse`,
then emit each horse's retained rows with horses in ascending name order
(`sorted(by_horse.keys())`). -/
def collect_history_rows (starts : List StartEntry) (maxN : Nat) : List HistOutRow :=
  let byHorse := starts.foldl (collectStep maxN) []
  let keys := sortLt (fun a b => decide (a < b)) (byHorse.map Prod.fst)
  (keys.map (fun k => (List.lookup k byHorse).getD [])).flatten

/-! ## Derived definitions used by the verification -/

/-- The store schema's uniqueness constraint on `(datum, avd, hastnamn)`:
SQLite keeps at most one row per key, and `ON CONFLICT` relies on it. -/
def UniqueKeysC (t : List CurrentRow) : Prop :=
  t.Pairwise (fun a b => currentKey a ≠ currentKey b)

/-- The keys of a batch of rows (`rows.map currentKey`). -/
def keysOfRows (rows : List CurrentRow) : List (String × String × String) :=
  rows.map currentKey

/-- For each key occurring in a batch, keep only its last row: the net
per-key effect of upserting the batch in order. -/
def dedupLastC : List CurrentRow → List CurrentRow
  | [] => []
  | r :: rs =>
    if currentKey r ∈ keysOfRows rs then dedupLastC rs else r :: dedupLastC rs

/-- The shape the spec claims for a Current-snapshot name: exactly the
namespace token `v85`, an underscore, an 8-digit (ASCII `0-9`) date, an
underscore, a single digit 1–8, and the `.csv` suffix ending the name —
with no calendar validation of the date digits.  The regexes accept
strictly more (Unicode digits; one trailing newline), so recognition is
not equivalent to this shape. -/
def specCurrentName (l : List Char) : Prop :=
  ∃ d1 d2 d3 d4 d5 d6 d7 d8 a : Char,
    l = ['v', '8', '5', '_', d1, d2, d3, d4, d5, d6, d7, d8, '_', a,
      '.', 'c', 's', 'v'] ∧
    (d1.isDigit ∧ d2.isDigit ∧ d3.isDigit ∧ d4.isDigit ∧
     d5.isDigit ∧ d6.isDigit ∧ d7.isDigit ∧ d8.isDigit) ∧
    '1' ≤ a ∧ a ≤ '8'

/-- The claimed shape of a History name, analogous to `specCurrentName`:
the namespace token, the literal `history` segment, an 8-digit date, an
underscore, a division digit 1–8, and the `.csv` suffix ending the name. -/
def specHistoryName (l : List Char) : Prop :=
  ∃ d1 d2 d3 d4 d5 d6 d7 d8 a : Char,
    l = ['v', '8', '5', '_', 'h', 'i', 's', 't', 'o', 'r', 'y', '_',
      d1, d2, d3, d4, d5, d6, d7, d8, '_', a, '.', 'c', 's', 'v'] ∧
    (d1.isDigit ∧ d2.isDigit ∧ d3.isDigit ∧ d4.isDigit ∧
     d5.isDigit ∧ d6.isDigit ∧ d7.isDigit ∧ d8.isDigit) ∧
    '1' ≤ a ∧ a ≤ '8'

/-- Declarative description of the names `CURRENT_RE` actually accepts:
the namespace token, an underscore, eight Unicode decimal digits, an
underscore, a division digit 1–8 and `.csv`, either ending the name or
followed by exactly one final newline (Python's `$`). -/
def specCurrentNameRe (l : List Char) : Prop :=
  ∃ d1 d2 d3 d4 d5 d6 d7 d8 a : Char,
    (l = ['v', '8', '5', '_', d1, d2, d3, d4, d5, d6, d7, d8, '_', a,
        '.', 'c', 's', 'v'] ∨
     l = ['v', '8', '5', '_', d1, d2, d3, d4, d5, d6, d7, d8, '_', a,
        '.', 'c', 's', 'v', '\n']) ∧
    (isPyDigit d1 ∧ isPyDigit d2 ∧ isPyDigit d3 ∧ isPyDigit d4 ∧
     isPyDigit d5 ∧ isPyDigit d6 ∧ isPyDigit d7 ∧ isPyDigit d8) ∧
    '1' ≤ a ∧ a ≤ '8'

/-- Declarative description of the names `HISTORY_RE` actually accepts,
analogous to `specCurrentNameRe` with the literal `history` segment. -/
def specHistoryNameRe (l : List Char) : Prop :=
  ∃ d1 d2 d3 d4 d5 d6 d7 d8 a : Char,
    (l = ['v', '8', '5', '_', 'h', 'i', 's', 't', 'o', 'r', 'y', '_',
        d1, d2, d3, d4, d5, d6, d7, d8, '_', a, '.', 'c', 's', 'v'] ∨
     l = ['v', '8', '5', '_', 'h', 'i', 's', 't', 'o', 'r', 'y', '_',
        d1, d2, d3, d4, d5, d6, d7, d8, '_', a, '.', 'c', 's', 'v', '\n']) ∧
    (isPyDigit d1 ∧ isPyDigit d2 ∧ isPyDigit d3 ∧ isPyDigit d4 ∧
     isPyDigit d5 ∧ isPyDigit d6 ∧ isPyDigit d7 ∧ isPyDigit d8) ∧
    '1' ≤ a ∧ a ≤ '8'

/-- The starts the collector does not skip (`if not horse_id: continue`). -/
def validStarts (starts : List StartEntry) : List StartEntry :=
  starts.filter (fun s => validId s.horseId)

/-- The effective horse name of a start (the `by_horse` dict key). -/
def effKey (s : StartEntry) : String :=
  match s.horseId with
  | some i => effName s i
  | none => pyStrip s.horseName

/-- The rows retained for one start: its fetched rows, newest first, capped. -/
def cappedRows (maxN : Nat) (s : StartEntry) : List HistOutRow :=
  (sortByDatumDesc (s.results.map (buildRow (effKey s)))).take maxN

/-! ## Concrete sample data for the witnesses -/

def nameC : String := "v85_20260101_1.csv"

def nameH : String := "v85_history_20260101_1.csv"

def nameH2 : String := "v85_history_20260102_2.csv"

def rowOdin : RawRow :=
  [("hästnamn", some " Odin "), ("startnummer", some "1"), ("v-odds", some "3.00")]

def rowOdin2 : RawRow :=
  [("hästnamn", some "Odin"), ("startnummer", some "1"), ("v-odds", some "3.50")]

def rowHist : RawRow :=
  [("hästnamn", some "Odin"), ("datum", some "2026-01-01"), ("odds", some "3.00")]

/-- A stored row attributed to the legacy-named predecessor file. -/
def legacyOdinRow : CurrentRow :=
  { datum := "2026-01-01", avd := "1", startnummer := "7", hastnamn := "Odin",
    kusk := "", tranare := "", v85_procent := "", v_odds := "3.00", vagn := "",
    source_file := "v86_20260101_1.csv" }

def recD1 : RecOut := ⟨"2026-01-01", "", "", "", "", "", "", "", "", ""⟩

def recD2 : RecOut := ⟨"2026-01-02", "", "", "", "", "", "", "", "", ""⟩

def sOdin : StartEntry := ⟨"Odin", some 1, [recD1, recD2]⟩

def badEntry : DirEntry := ⟨nameC, true, none⟩

def junkEntry : DirEntry := ⟨"notes.txt", true, none⟩

def goodEntry : DirEntry := ⟨nameC, true, some [rowOdin]⟩

/-! ## Lemmas about the stable sort -/

theorem insertLt_perm {α : Type} (lt : α → α → Bool) (x : α) (l : List α) :
    List.Perm (insertLt lt x l) (x :: l) := by
  induction l with
  | nil => exact List.Perm.refl _
  | cons y ys ih =>
    simp only [insertLt]
    split
    · exact (ih.cons y).trans (List.Perm.swap x y ys)
    · exact List.Perm.refl _

theorem sortLt_perm {α : Type} (lt : α → α → Bool) (l : List α) :
    List.Perm (sortLt lt l) l := by
  induction l with
  | nil => exact List.Perm.refl _
  | cons x xs ih => exact (insertLt_perm lt x (sortLt lt xs)).trans (ih.cons x)

theorem mem_insertLt {α : Type} {lt : α → α → Bool} {x a : α} {l : List α} :
    a ∈ insertLt lt x l ↔ a = x ∨ a ∈ l := by
  rw [(insertLt_perm lt x l).mem_iff, List.mem_cons]

theorem pairwise_insertLt {α : Type} {lt : α → α → Bool}
    (hasym : ∀ a b, lt a b = true → lt b a = false)
    (hneg : ∀ a b c, lt b a = false → lt c b = false → lt c a = false)
    (x : α) {l : List α} (hl : l.Pairwise (fun a b => lt b a = false)) :
    (insertLt lt x l).Pairwise (fun a b => lt b a = false) := by
  induction l with
  | nil => simp [insertLt]
  | cons y ys ih =>
    rw [List.pairwise_cons] at hl
    obtain ⟨hy, hys⟩ := hl
    simp only [insertLt]
    split
    · rename_i hlt
      rw [List.pairwise_cons]
      refine ⟨?_, ih hys⟩
      intro z hz
      rcases mem_insertLt.mp hz with hzx | hzy
      · subst hzx; exact hasym y z hlt
      · exact hy z hzy
    · rename_i hnlt
      rw [List.pairwise_cons]
      have hyx : lt y x = false := by
        cases h : lt y x with
        | false => rfl
        | true => exact absurd h hnlt
      refine ⟨?_, List.pairwise_cons.mpr ⟨hy, hys⟩⟩
      intro z hz
      rcases List.mem_cons.mp hz with hzy | hzys
      · subst hzy; exact hyx
      · exact hneg x y z hyx (hy z hzys)

theorem sortLt_pairwise {α : Type} {lt : α → α → Bool}
    (hasym : ∀ a b, lt a b = true → lt b a = false)
    (hneg : ∀ a b c, lt b a = false → lt c b = false → lt c a = false)
    (l : List α) :
    (sortLt lt l).Pairwise (fun a b => lt b a = false) := by
  induction l with
  | nil => simp [sortLt]
  | cons x xs ih => exact pairwise_insertLt hasym hneg x ih

/-- Stability of the insertion step, phrased through `filter`: if no element
satisfying `pk` is strictly before an element satisfying `pk`, inserting
`x` leaves the `pk`-subsequence intact except for `x` joining its front. -/
theorem filter_insertLt {α : Type} {lt : α → α → Bool} {pk : α → Bool}
    (hx : ∀ a b, pk a = true → pk b = true → lt a b = false)
    (x : α) (l : List α) :
    (insertLt lt x l).filter pk =
      if pk x then x :: l.filter pk else l.filter pk := by
  induction l with
  | nil =>
    simp only [insertLt, List.filter]
    cases h : pk x <;> simp [h]
  | cons y ys ih =>
    simp only [insertLt]
    split
    · rename_i hlt
      cases hpy : pk y with
      | true =>
        have hpx : pk x = false := by
          cases h : pk x with
          | false => rfl
          | true => rw [hx y x hpy h] at hlt; exact absurd hlt (by simp)
        simp only [List.filter_cons, hpy, if_true, ih, hpx, if_false,
          Bool.false_eq_true, ite_false, ite_true, cond_true, cond_false]
      | false =>
        simp only [List.filter_cons, hpy, ih, Bool.false_eq_true, ite_false,
          cond_false]
    · cases h : pk x <;> simp [List.filter_cons, h]

/-- Stability of the sort: the subsequence of elements satisfying `pk` is
unchanged whenever `lt` never strictly orders two `pk`-elements. -/
theorem sortLt_filter {α : Type} {lt : α → α → Bool} {pk : α → Bool}
    (hx : ∀ a b, pk a = true → pk b = true → lt a b = false)
    (l : List α) : (sortLt lt l).filter pk = l.filter pk := by
  induction l with
  | nil => rfl
  | cons y ys ih =>
    show (insertLt lt y (sortLt lt ys)).filter pk = _
    rw [filter_insertLt hx, ih, List.filter_cons]

/-! ## Lemmas about the Current-table upsert -/

theorem overwriteCurrent_key (x r : CurrentRow) :
    currentKey (overwriteCurrent x r) = currentKey x := rfl

theorem overwriteCurrent_eq {x r : CurrentRow} (h : currentKey x = currentKey r) :
    overwriteCurrent x r = r := by
  cases x; cases r
  simp only [currentKey, Prod.mk.injEq] at h
  obtain ⟨h1, h2, h3⟩ := h
  simp [overwriteCurrent, h1, h2, h3]

/-- Updating rows that do not share `r`'s key is the identity. -/
theorem map_overwrite_id {r : CurrentRow} {ys : List CurrentRow}
    (h : ∀ z ∈ ys, currentKey z ≠ currentKey r) :
    (ys.map (fun x => if currentKey x = currentKey r then overwriteCurrent x r else x)) = ys := by
  induction ys with
  | nil => rfl
  | cons y ys ih =>
    simp only [List.map_cons, if_neg (h y (List.mem_cons_self y ys)),
      ih (fun z hz => h z (List.mem_cons_of_mem y hz))]

/-- The in-place `DO UPDATE` pass over a unique-keyed table containing the
key is, up to row order, `r` together with every row of a different key. -/
theorem map_overwrite_perm {r : CurrentRow} :
    ∀ {t : List CurrentRow}, UniqueKeysC t →
      (∃ x ∈ t, currentKey x = currentKey r) →
      List.Perm
        (t.map (fun x => if currentKey x = currentKey r then overwriteCurrent x r else x))
        (r :: t.filter (fun x => decide (currentKey x ≠ currentKey r))) := by
  intro t
  induction t with
  | nil => rintro _ ⟨x, hx, -⟩; exact absurd hx (List.not_mem_nil x)
  | cons y ys ih =>
    intro ht hex
    rw [UniqueKeysC, List.pairwise_cons] at ht
    obtain ⟨hy, hys⟩ := ht
    by_cases hyr : currentKey y = currentKey r
    · have hzs : ∀ z ∈ ys, currentKey z ≠ currentKey r := by
        intro z hz
        rw [← hyr]
        exact fun hzy => (hy z hz) hzy.symm
      rw [List.map_cons, if_pos hyr, overwriteCurrent_eq hyr,
        List.filter_cons_of_neg (by simp [hyr]),
        map_overwrite_id hzs,
        List.filter_eq_self.mpr (fun a ha => by simpa using hzs a ha)]
    · obtain ⟨x0, hx0, hx0k⟩ := hex
      have hx0ys : x0 ∈ ys := by
        rcases List.mem_cons.mp hx0 with h | h
        · subst h; exact absurd hx0k hyr
        · exact h
      rw [List.map_cons, if_neg hyr, List.filter_cons_of_pos (by simpa using hyr)]
      exact (((ih hys ⟨x0, hx0ys, hx0k⟩).cons y).trans
        (List.Perm.swap r y _))

/-- On a unique-keyed table, the upsert is (up to row order) `r` together
with every stored row of a different key. -/
theorem upsertCurrent_perm {t : List CurrentRow} (r : CurrentRow) (ht : UniqueKeysC t) :
    List.Perm (upsertCurrent t r)
      (r :: t.filter (fun x => decide (currentKey x ≠ currentKey r))) := by
  unfold upsertCurrent
  split
  · rename_i hc
    rw [List.any_eq_true] at hc
    obtain ⟨x0, hx0, hx0k⟩ := hc
    rw [decide_eq_true_eq] at hx0k
    exact map_overwrite_perm ht ⟨x0, hx0, hx0k⟩
  · rename_i hc
    have hall : ∀ x ∈ t, currentKey x ≠ currentKey r := by
      intro x hx hk
      exact hc (List.any_eq_true.mpr ⟨x, hx, by simpa using hk⟩)
    rw [List.filter_eq_self.mpr (fun a ha => by simpa using hall a ha)]
    exact List.perm_append_singleton r t

theorem key_upd (r a : CurrentRow) :
    currentKey (if currentKey a = currentKey r then overwriteCurrent a r else a) =
      currentKey a := by
  split <;> rfl

/-- The upsert keeps the uniqueness constraint satisfied. -/
theorem upsertCurrent_unique {t : List CurrentRow} (r : CurrentRow)
    (ht : UniqueKeysC t) : UniqueKeysC (upsertCurrent t r) := by
  unfold upsertCurrent
  split
  · exact List.Pairwise.map _
      (fun a b hab => by rw [key_upd, key_upd]; exact hab) ht
  · rename_i hc
    rw [UniqueKeysC, List.pairwise_append]
    refine ⟨ht, List.pairwise_singleton _ _, ?_⟩
    intro a ha b hb hk
    rw [List.mem_singleton] at hb
    subst hb
    exact hc (List.any_eq_true.mpr ⟨a, ha, by simpa using hk⟩)

theorem mem_upsertCurrent {t : List CurrentRow} {r x : CurrentRow}
    (hx : x ∈ upsertCurrent t r) : x ∈ t ∨ x = r := by
  unfold upsertCurrent at hx
  split at hx
  · obtain ⟨y, hy, hyx⟩ := List.mem_map.mp hx
    by_cases hk : currentKey y = currentKey r
    · rw [if_pos hk, overwriteCurrent_eq hk] at hyx
      exact Or.inr hyx.symm
    · rw [if_neg hk] at hyx
      exact Or.inl (hyx ▸ hy)
  · rcases List.mem_append.mp hx with h | h
    · exact Or.inl h
    · exact Or.inr (List.mem_singleton.mp h)

theorem foldl_upsert_unique (rows : List CurrentRow) :
    ∀ {t : List CurrentRow}, UniqueKeysC t →
      UniqueKeysC (List.foldl upsertCurrent t rows) := by
  induction rows with
  | nil => intro t ht; exact ht
  | cons r rs ih =>
    intro t ht
    exact ih (upsertCurrent_unique r ht)

theorem mem_foldl_upsert (rows : List CurrentRow) :
    ∀ {t : List CurrentRow} {x : CurrentRow},
      x ∈ List.foldl upsertCurrent t rows → x ∈ t ∨ x ∈ rows := by
  induction rows with
  | nil => intro t x hx; exact Or.inl hx
  | cons r rs ih =>
    intro t x hx
    rcases ih hx with h | h
    · rcases mem_upsertCurrent h with h' | h'
      · exact Or.inl h'
      · exact Or.inr (h' ▸ List.mem_cons_self r rs)
    · exact Or.inr (List.mem_cons_of_mem r h)

theorem mem_dedupLastC {rows : List CurrentRow} {x : CurrentRow}
    (hx : x ∈ dedupLastC rows) : x ∈ rows := by
  induction rows with
  | nil => exact absurd hx (List.not_mem_nil x)
  | cons r rs ih =>
    rw [dedupLastC] at hx
    split at hx
    · exact List.mem_cons_of_mem r (ih hx)
    · rcases List.mem_cons.mp hx with h | h
      · exact h ▸ List.mem_cons_self r rs
      · exact List.mem_cons_of_mem r (ih h)

/-- The rows of a given key surviving `dedupLastC` are exactly the last
batch row with that key. -/
theorem dedupLastC_filter (K : String × String × String) (rows : List CurrentRow) :
    (dedupLastC rows).filter (fun x => decide (currentKey x = K)) =
      ((rows.filter (fun x => decide (currentKey x = K))).getLast?).toList := by
  induction rows with
  | nil => rfl
  | cons r rs ih =>
    have hkey : currentKey r ∈ keysOfRows rs ↔
        rs.filter (fun x => decide (currentKey x = currentKey r)) ≠ [] := by
      constructor
      · intro h
        obtain ⟨z, hz, hzk⟩ := List.mem_map.mp h
        exact List.ne_nil_of_mem (List.mem_filter.mpr ⟨hz, by simpa using hzk⟩)
      · intro h
        obtain ⟨z, hz⟩ := List.exists_mem_of_ne_nil _ h
        obtain ⟨hz1, hz2⟩ := List.mem_filter.mp hz
        exact List.mem_map.mpr ⟨z, hz1, by simpa using hz2⟩
    rw [dedupLastC]
    split
    · rename_i hmem
      by_cases hrK : currentKey r = K
      · subst hrK
        rw [List.filter_cons_of_pos (by simp), ih]
        obtain ⟨c, l, hcl⟩ := List.exists_cons_of_ne_nil (hkey.mp hmem)
        rw [hcl, List.getLast?_cons_cons]
      · rw [List.filter_cons_of_neg (by simpa using hrK), ih]
    · rename_i hmem
      by_cases hrK : currentKey r = K
      · subst hrK
        have hnil : rs.filter (fun x => decide (currentKey x = currentKey r)) = [] := by
          cases h : rs.filter (fun x => decide (currentKey x = currentKey r)) with
          | nil => rfl
          | cons c l => exact absurd (hkey.mpr (by rw [h]; simp)) hmem
        rw [List.filter_cons_of_pos (by simp), List.filter_cons_of_pos (by simp),
          ih, hnil]
        rfl
      · rw [List.filter_cons_of_neg (by simpa using hrK),
          List.filter_cons_of_neg (by simpa using hrK), ih]

/-- Upserting a batch into a unique-keyed table is, up to row order, the
batch's last row per key together with every stored row whose key the
batch does not mention. -/
theorem foldl_upsert_perm (rows : List CurrentRow) :
    ∀ {t : List CurrentRow}, UniqueKeysC t →
      List.Perm (List.foldl upsertCurrent t rows)
        (dedupLastC rows ++
          t.filter (fun x => decide (currentKey x ∉ keysOfRows rows))) := by
  induction rows with
  | nil =>
    intro t ht
    simp [dedupLastC, keysOfRows]
  | cons r rs ih =>
    intro t ht
    rw [List.foldl_cons]
    refine (ih (upsertCurrent_unique r ht)).trans ?_
    have hfil :
        List.Perm
          ((upsertCurrent t r).filter (fun x => decide (currentKey x ∉ keysOfRows rs)))
          (((r :: t.filter (fun x => decide (currentKey x ≠ currentKey r)))).filter
            (fun x => decide (currentKey x ∉ keysOfRows rs))) :=
      (upsertCurrent_perm r ht).filter _
    have hcomb :
        (t.filter (fun x => decide (currentKey x ≠ currentKey r))).filter
            (fun x => decide (currentKey x ∉ keysOfRows rs)) =
          t.filter (fun x => decide (currentKey x ∉ keysOfRows (r :: rs))) := by
      rw [List.filter_filter]
      refine List.filter_congr ?_
      intro a _
      simp only [keysOfRows, List.map_cons, List.mem_cons, not_or]
      by_cases h1 : currentKey a = currentKey r <;>
        by_cases h2 : currentKey a ∈ List.map currentKey rs <;>
          simp [h1, h2]
    by_cases hmem : currentKey r ∈ keysOfRows rs
    · have hqr : (fun x => decide (currentKey x ∉ keysOfRows rs)) r = false := by
        simpa using hmem
      rw [List.filter_cons_of_neg (by simpa using hmem)] at hfil
      rw [hcomb] at hfil
      rw [dedupLastC, if_pos hmem]
      exact hfil.append_left (dedupLastC rs)
    · rw [List.filter_cons_of_pos (by simpa using hmem), hcomb] at hfil
      rw [dedupLastC, if_neg hmem]
      refine (hfil.append_left (dedupLastC rs)).trans ?_
      exact List.perm_middle

/-! ## Shape of recognized names and the legacy alias -/

theorem stripFront_some {pat l rest : List Char} (h : stripFront pat l = some rest) :
    l = pat ++ rest := by
  unfold stripFront at h
  split at h
  · rename_i hpre
    obtain ⟨tl, htl⟩ := (List.isPrefixOf_iff_prefix.mp hpre)
    injection h with h
    subst htl
    rw [List.drop_left] at h
    rw [h]
  · exact absurd h (by simp)

theorem replaceFirst_append (pat rep rest : List Char) (hpat : pat ≠ []) :
    replaceFirst pat rep (pat ++ rest) = rep ++ rest := by
  obtain ⟨c, cs, rfl⟩ := List.exists_cons_of_ne_nil hpat
  show replaceFirst (c :: cs) rep (c :: (cs ++ rest)) = rep ++ rest
  rw [replaceFirst]
  have hpre : (c :: cs).isPrefixOf (c :: (cs ++ rest)) = true := by
    rw [List.isPrefixOf_iff_prefix]
    exact ⟨rest, by simp⟩
  rw [if_pos hpre]
  show rep ++ List.drop (c :: cs).length ((c :: cs) ++ rest) = rep ++ rest
  rw [List.drop_left]

theorem matchCurrentName_toList {s : String} {d : List Char} {a : Char}
    (h : matchCurrentName s = some (d, a)) :
    s.toList = ['v', '8', '5', '_'] ++ s.toList.drop 4 := by
  unfold matchCurrentName at h
  cases hs : stripFront ['v', '8', '5', '_'] s.toList with
  | none => rw [hs] at h; exact absurd h (by simp)
  | some rest =>
    have := stripFront_some hs
    rw [this]
    simp

theorem matchHistoryName_toList {s : String} {d : List Char} {a : Char}
    (h : matchHistoryName s = some (d, a)) :
    s.toList = "v85_history_".toList ++ s.toList.drop 12 := by
  unfold matchHistoryName at h
  cases hs : stripFront "v85_history_".toList s.toList with
  | none => rw [hs] at h; exact absurd h (by simp)
  | some rest =>
    have := stripFront_some hs
    rw [this]
    simp

/-- For a recognized Current name, the legacy alias substitutes the leading
namespace token and keeps the rest of the name unchanged. -/
theorem legacyCurrentName_of_match {s : String} {d : List Char} {a : Char}
    (h : matchCurrentName s = some (d, a)) :
    legacyCurrentName s = String.mk (['v', '8', '6', '_'] ++ s.toList.drop 4) := by
  unfold legacyCurrentName
  conv_lhs => rw [matchCurrentName_toList h]
  rw [replaceFirst_append _ _ _ (by decide)]

/-- For a recognized History name, the legacy alias substitutes the leading
namespace token (in front of the literal history segment) and keeps the
rest of the name unchanged. -/
theorem legacyHistoryName_of_match {s : String} {d : List Char} {a : Char}
    (h : matchHistoryName s = some (d, a)) :
    legacyHistoryName s = String.mk ("v86_history_".toList ++ s.toList.drop 12) := by
  unfold legacyHistoryName
  conv_lhs => rw [matchHistoryName_toList h]
  rw [replaceFirst_append _ _ _ (by decide)]

theorem legacyCurrentName_ne {s : String} {d : List Char} {a : Char}
    (h : matchCurrentName s = some (d, a)) : legacyCurrentName s ≠ s := by
  intro he
  have h1 : (legacyCurrentName s).toList = s.toList := by rw [he]
  rw [legacyCurrentName_of_match h] at h1
  rw [matchCurrentName_toList h] at h1
  simp at h1

theorem legacyHistoryName_ne {s : String} {d : List Char} {a : Char}
    (h : matchHistoryName s = some (d, a)) : legacyHistoryName s ≠ s := by
  intro he
  have h1 : (legacyHistoryName s).toList = s.toList := by rw [he]
  rw [legacyHistoryName_of_match h] at h1
  rw [matchHistoryName_toList h] at h1
  simp at h1

/-! ## Per-file import: unfolding equations and attribution facts -/

theorem load_current_file_some {name : String} {d : List Char} {a : Char}
    (h : matchCurrentName name = some (d, a)) (t : List CurrentRow)
    (rows : List RawRow) :
    load_current_file t name rows =
      List.foldl upsertCurrent (clearCurrent [name, legacyCurrentName name] t)
        (rows.map (normCurrentRow (yyyymmdd_to_iso d) (String.mk [a]) name)) := by
  unfold load_current_file
  rw [h]

theorem load_history_file_some {name : String} {d : List Char} {a : Char}
    (h : matchHistoryName name = some (d, a)) (t : List HistoryRow)
    (rows : List RawRow) :
    load_history_file t name rows =
      clearHistory [name, legacyHistoryName name] t ++
        rows.map (normHistoryRow (String.mk [a]) name) := by
  unfold load_history_file
  rw [h]

theorem norm_current_source {rows : List RawRow} {da av n : String} {x : CurrentRow}
    (hx : x ∈ rows.map (normCurrentRow da av n)) : x.source_file = n := by
  obtain ⟨r, -, hr⟩ := List.mem_map.mp hx
  rw [← hr]
  rfl

theorem norm_history_source {rows : List RawRow} {av n : String} {x : HistoryRow}
    (hx : x ∈ rows.map (normHistoryRow av n)) : x.source_file = n := by
  obtain ⟨r, -, hr⟩ := List.mem_map.mp hx
  rw [← hr]
  rfl

theorem clearCurrent_unique {names : List String} {t : List CurrentRow}
    (ht : UniqueKeysC t) : UniqueKeysC (clearCurrent names t) :=
  List.Pairwise.filter _ ht

theorem mem_clearCurrent {names : List String} {t : List CurrentRow} {x : CurrentRow} :
    x ∈ clearCurrent names t ↔ x ∈ t ∧ x.source_file ∉ names := by
  unfold clearCurrent
  rw [List.mem_filter]
  simp

theorem mem_clearHistory {names : List String} {t : List HistoryRow} {x : HistoryRow} :
    x ∈ clearHistory names t ↔ x ∈ t ∧ x.source_file ∉ names := by
  unfold clearHistory
  rw [List.mem_filter]
  simp

theorem load_current_file_none {name : String} (h : matchCurrentName name = none)
    (t : List CurrentRow) (rows : List RawRow) :
    load_current_file t name rows = t := by
  unfold load_current_file
  rw [h]

theorem load_history_file_none {name : String} (h : matchHistoryName name = none)
    (t : List HistoryRow) (rows : List RawRow) :
    load_history_file t name rows = t := by
  unfold load_history_file
  rw [h]

/-! ## Idempotence cores -/

/-- Delete-then-upsert is idempotent on the Current table: running the
delete/upsert pair for a batch whose rows are all attributed to one of the
cleared names a second time permutes the first run's result. -/
theorem import_current_core (names : List String) (nrows : List CurrentRow)
    (t : List CurrentRow) (hu : UniqueKeysC t)
    (hsrc : ∀ x ∈ nrows, x.source_file ∈ names) :
    List.Perm
      (List.foldl upsertCurrent
        (clearCurrent names (List.foldl upsertCurrent (clearCurrent names t) nrows))
        nrows)
      (List.foldl upsertCurrent (clearCurrent names t) nrows) := by
  have hbU : UniqueKeysC (clearCurrent names t) := clearCurrent_unique hu
  have hS1 := foldl_upsert_perm nrows hbU
  have hS1U : UniqueKeysC (List.foldl upsertCurrent (clearCurrent names t) nrows) :=
    foldl_upsert_unique nrows hbU
  have hcU : UniqueKeysC
      (clearCurrent names (List.foldl upsertCurrent (clearCurrent names t) nrows)) :=
    clearCurrent_unique hS1U
  have hS2 := foldl_upsert_perm nrows hcU
  have h1 : (dedupLastC nrows).filter (fun x => decide (x.source_file ∉ names)) = [] := by
    refine List.filter_eq_nil_iff.mpr ?_
    intro x hx
    have := hsrc x (mem_dedupLastC hx)
    simp [this]
  have h2 :
      ((clearCurrent names t).filter
          (fun x => decide (currentKey x ∉ keysOfRows nrows))).filter
        (fun x => decide (x.source_file ∉ names)) =
        (clearCurrent names t).filter
          (fun x => decide (currentKey x ∉ keysOfRows nrows)) := by
    refine List.filter_eq_self.mpr ?_
    intro x hx
    have hxc : x ∈ clearCurrent names t := (List.mem_filter.mp hx).1
    have := (mem_clearCurrent.mp hxc).2
    simp [this]
  have h3 :
      ((clearCurrent names t).filter
          (fun x => decide (currentKey x ∉ keysOfRows nrows))).filter
        (fun x => decide (currentKey x ∉ keysOfRows nrows)) =
        (clearCurrent names t).filter
          (fun x => decide (currentKey x ∉ keysOfRows nrows)) :=
    List.filter_eq_self.mpr (fun x hx => (List.mem_filter.mp hx).2)
  have hq2 :
      List.Perm
        ((clearCurrent names (List.foldl upsertCurrent (clearCurrent names t) nrows)).filter
          (fun x => decide (currentKey x ∉ keysOfRows nrows)))
        ((clearCurrent names t).filter
          (fun x => decide (currentKey x ∉ keysOfRows nrows))) := by
    have p1 :=
      ((hS1.filter (fun x => decide (x.source_file ∉ names))).filter
        (fun x => decide (currentKey x ∉ keysOfRows nrows)))
    rw [List.filter_append, h1, List.nil_append, h2, h3] at p1
    exact p1
  exact hS2.trans ((hq2.append_left _).trans hS1.symm)

/-- Delete-then-append is idempotent on the History table (exact equality):
the second run's delete removes precisely the first run's appended batch. -/
theorem import_history_core (names : List String) (nrows : List HistoryRow)
    (t : List HistoryRow)
    (hsrc : ∀ x ∈ nrows, x.source_file ∈ names) :
    clearHistory names (clearHistory names t ++ nrows) ++ nrows =
      clearHistory names t ++ nrows := by
  unfold clearHistory
  rw [List.filter_append]
  have h1 : (t.filter (fun x => decide (x.source_file ∉ names))).filter
      (fun x => decide (x.source_file ∉ names)) =
      t.filter (fun x => decide (x.source_file ∉ names)) :=
    List.filter_eq_self.mpr (fun x hx => (List.mem_filter.mp hx).2)
  have h2 : nrows.filter (fun x => decide (x.source_file ∉ names)) = [] := by
    refine List.filter_eq_nil_iff.mpr ?_
    intro x hx
    simp [hsrc x hx]
  rw [h1, h2, List.append_nil]

/-- C1.  Idempotence of import: re-importing the same recognized, unchanged
file (Current kind via `load_current`'s per-file body, History kind via
`load_history`'s) leaves the store with the same rows — the same row counts
and field values — as after the first import.  The Current table satisfies
its schema's uniqueness constraint on `(datum, avd, hastnamn)`. -/
theorem c1_import_idempotent (name : String) (rows : List RawRow)
    (t : List CurrentRow) (h : List HistoryRow)
    (_hrec : (matchCurrentName name).isSome ∨ (matchHistoryName name).isSome)
    (hu : UniqueKeysC t) :
    List.Perm (load_current_file (load_current_file t name rows) name rows)
        (load_current_file t name rows) ∧
      load_history_file (load_history_file h name rows) name rows =
        load_history_file h name rows := by
  constructor
  · cases hm : matchCurrentName name with
    | none =>
      rw [load_current_file_none hm]
    | some da =>
      obtain ⟨d, a⟩ := da
      rw [load_current_file_some hm (load_current_file t name rows) rows,
        load_current_file_some hm t rows]
      refine import_current_core _ _ t hu ?_
      intro x hx
      rw [norm_current_source hx]
      exact List.mem_cons_self _ _
  · cases hm : matchHistoryName name with
    | none =>
      rw [load_history_file_none hm]
    | some da =>
      obtain ⟨d, a⟩ := da
      rw [load_history_file_some hm (load_history_file h name rows) rows,
        load_history_file_some hm h rows]
      refine import_history_core _ _ h ?_
      intro x hx
      rw [norm_history_source hx]
      exact List.mem_cons_self _ _

theorem keysOfRows_mem_iff {K : String × String × String} {rs : List CurrentRow} :
    K ∈ keysOfRows rs ↔ rs.filter (fun x => decide (currentKey x = K)) ≠ [] := by
  constructor
  · intro h
    obtain ⟨z, hz, hzk⟩ := List.mem_map.mp h
    exact List.ne_nil_of_mem (List.mem_filter.mpr ⟨hz, by simpa using hzk⟩)
  · intro h
    obtain ⟨z, hz⟩ := List.exists_mem_of_ne_nil _ h
    obtain ⟨hz1, hz2⟩ := List.mem_filter.mp hz
    exact List.mem_map.mpr ⟨z, hz1, by simpa using hz2⟩

/-- C2.  Upsert correctness for Current: when the file supplies rows for key
`K` — whether `K` is already stored (possibly attributed to a different,
still-valid file) or absent — the imported table contains exactly one row
with key `K`, namely the last normalized row the file supplies for `K`,
carrying that file's non-key attribute values and its `source_file`. -/
theorem c2_upsert_latest (name : String) (d : List Char) (a : Char)
    (rows : List RawRow) (t : List CurrentRow)
    (hm : matchCurrentName name = some (d, a)) (hu : UniqueKeysC t)
    (K : String × String × String)
    (hK : K ∈ keysOfRows
      (rows.map (normCurrentRow (yyyymmdd_to_iso d) (String.mk [a]) name))) :
    ∃ rK : CurrentRow,
      ((rows.map (normCurrentRow (yyyymmdd_to_iso d) (String.mk [a]) name)).filter
          (fun x => decide (currentKey x = K))).getLast? = some rK ∧
      (load_current_file t name rows).filter (fun x => decide (currentKey x = K)) =
        [rK] ∧
      rK ∈ rows.map (normCurrentRow (yyyymmdd_to_iso d) (String.mk [a]) name) ∧
      rK.source_file = name := by
  have hbU : UniqueKeysC (clearCurrent [name, legacyCurrentName name] t) :=
    clearCurrent_unique hu
  have hS1 := foldl_upsert_perm
    (rows.map (normCurrentRow (yyyymmdd_to_iso d) (String.mk [a]) name)) hbU
  have hne : ((rows.map (normCurrentRow (yyyymmdd_to_iso d) (String.mk [a]) name)).filter
      (fun x => decide (currentKey x = K))) ≠ [] := keysOfRows_mem_iff.mp hK
  obtain ⟨rK, hrK⟩ := Option.isSome_iff_exists.mp
    ((List.getLast?_isSome).mpr hne)
  have hrKmem : rK ∈ (rows.map (normCurrentRow (yyyymmdd_to_iso d) (String.mk [a]) name)).filter
      (fun x => decide (currentKey x = K)) := List.mem_of_mem_getLast? hrK
  refine ⟨rK, hrK, ?_, (List.mem_filter.mp hrKmem).1,
    norm_current_source (List.mem_filter.mp hrKmem).1⟩
  have hfil := hS1.filter (fun x => decide (currentKey x = K))
  rw [load_current_file_some hm t rows]
  rw [List.filter_append, dedupLastC_filter, hrK] at hfil
  have hnil :
      ((clearCurrent [name, legacyCurrentName name] t).filter
          (fun x => decide (currentKey x ∉ keysOfRows
            (rows.map (normCurrentRow (yyyymmdd_to_iso d) (String.mk [a]) name))))).filter
        (fun x => decide (currentKey x = K)) = [] := by
    refine List.filter_eq_nil_iff.mpr ?_
    intro x hx
    have hq := (List.mem_filter.mp hx).2
    rw [decide_eq_true_eq] at hq
    intro hxK
    rw [decide_eq_true_eq] at hxK
    exact hq (hxK ▸ hK)
  rw [hnil, List.append_nil] at hfil
  exact List.perm_singleton.mp hfil

/-- Every key mentioned by the batch is present after upserting the batch. -/
theorem exists_key_foldl (nrows base : List CurrentRow) (hbU : UniqueKeysC base)
    (K : String × String × String) (hK : K ∈ keysOfRows nrows) :
    ∃ x ∈ List.foldl upsertCurrent base nrows, currentKey x = K := by
  have hS1 := foldl_upsert_perm nrows hbU
  have hne := keysOfRows_mem_iff.mp hK
  obtain ⟨rK, hrK⟩ := Option.isSome_iff_exists.mp ((List.getLast?_isSome).mpr hne)
  have hfil : (dedupLastC nrows).filter (fun x => decide (currentKey x = K)) = [rK] := by
    rw [dedupLastC_filter, hrK]
    rfl
  have hmem : rK ∈ (dedupLastC nrows).filter (fun x => decide (currentKey x = K)) := by
    rw [hfil]
    exact List.mem_singleton_self rK
  obtain ⟨h1, h2⟩ := List.mem_filter.mp hmem
  refine ⟨rK, ?_, by simpa using h2⟩
  rw [hS1.mem_iff]
  exact List.mem_append_left _ h1

/-- C3.  Legacy supersession: for recognized names of either kind, the legacy
alias substitutes the first occurrence of the active namespace token `v85`
with the legacy token `v86` and keeps the rest of the name unchanged; after
importing the file, no stored row of the matching kind is attributed to the
legacy alias (the delete removed them), and every normalized row's key is
present — the legacy-attributed predecessor rows are removed and replaced. -/
theorem c3_legacy_supersession (name name' : String) (d d' : List Char) (a a' : Char)
    (hc : matchCurrentName name = some (d, a))
    (hh : matchHistoryName name' = some (d', a')) :
    (name.toList = ['v', '8', '5', '_'] ++ name.toList.drop 4 ∧
      legacyCurrentName name = String.mk (['v', '8', '6', '_'] ++ name.toList.drop 4)) ∧
    (name'.toList = "v85_history_".toList ++ name'.toList.drop 12 ∧
      legacyHistoryName name' =
        String.mk ("v86_history_".toList ++ name'.toList.drop 12)) ∧
    (∀ (t : List CurrentRow) (rows : List RawRow) (x : CurrentRow),
      x ∈ load_current_file t name rows → x.source_file ≠ legacyCurrentName name) ∧
    (∀ (t : List CurrentRow) (rows : List RawRow), UniqueKeysC t →
      ∀ r ∈ rows.map (normCurrentRow (yyyymmdd_to_iso d) (String.mk [a]) name),
        ∃ x ∈ load_current_file t name rows, currentKey x = currentKey r) ∧
    (∀ (t : List HistoryRow) (rows : List RawRow) (x : HistoryRow),
      x ∈ load_history_file t name' rows → x.source_file ≠ legacyHistoryName name') := by
  refine ⟨⟨matchCurrentName_toList hc, legacyCurrentName_of_match hc⟩,
    ⟨matchHistoryName_toList hh, legacyHistoryName_of_match hh⟩, ?_, ?_, ?_⟩
  · intro t rows x hx
    rw [load_current_file_some hc t rows] at hx
    rcases mem_foldl_upsert _ hx with h | h
    · have := (mem_clearCurrent.mp h).2
      intro he
      exact this (he ▸ List.mem_cons_of_mem _ (List.mem_singleton_self _))
    · rw [norm_current_source h]
      exact fun he => legacyCurrentName_ne hc he.symm
  · intro t rows hu r hr
    rw [load_current_file_some hc t rows]
    exact exists_key_foldl _ _ (clearCurrent_unique hu) _
      (List.mem_map_of_mem currentKey hr)
  · intro t rows x hx
    rw [load_history_file_some hh t rows] at hx
    rcases List.mem_append.mp hx with h | h
    · have := (mem_clearHistory.mp h).2
      intro he
      exact this (he ▸ List.mem_cons_of_mem _ (List.mem_singleton_self _))
    · rw [norm_history_source h]
      exact fun he => legacyHistoryName_ne hh he.symm

theorem toList_mk (l : List Char) : (String.mk l).toList = l := rfl

/-- A recognized History name (namespace `v85`) is never another recognized
History file's legacy alias (namespace `v86`). -/
theorem history_name_ne_legacy {nf ng : String} {df dg : List Char} {af ag : Char}
    (hf : matchHistoryName nf = some (df, af))
    (hg : matchHistoryName ng = some (dg, ag)) :
    nf ≠ legacyHistoryName ng := by
  intro he
  have h1 : nf.toList = (legacyHistoryName ng).toList := by rw [he]
  rw [matchHistoryName_toList hf, legacyHistoryName_of_match hg, toList_mk] at h1
  have h2 : ("v85_history_".toList : List Char) = "v86_history_".toList :=
    (List.append_inj h1 (by decide)).1
  exact absurd h2 (by decide)

theorem clearHistory_append (names : List String) (t₁ t₂ : List HistoryRow) :
    clearHistory names (t₁ ++ t₂) = clearHistory names t₁ ++ clearHistory names t₂ := by
  unfold clearHistory
  exact List.filter_append _ _

/-- C4.  History append semantics: `load_history` inserts every normalized
row unconditionally, so (1) re-importing the same history file leaves the
table exactly as after the first import (deduplicated solely by the
preceding delete-by-attribution), and importing a second, different history
file keeps both files' batches: (2) the resulting table is the doubly
cleared old rows followed by the first file's batch and then the second's,
and (3)/(4) the rows attributed to each file are exactly that file's
normalized rows. -/
theorem c4_history_append (nf ng : String) (df dg : List Char) (af ag : Char)
    (hf : matchHistoryName nf = some (df, af))
    (hg : matchHistoryName ng = some (dg, ag))
    (hne : nf ≠ ng)
    (t : List HistoryRow) (rf rg : List RawRow) :
    load_history_file (load_history_file t nf rf) nf rf =
      load_history_file t nf rf ∧
    load_history_file (load_history_file t nf rf) ng rg =
      clearHistory [ng, legacyHistoryName ng]
          (clearHistory [nf, legacyHistoryName nf] t) ++
        rf.map (normHistoryRow (String.mk [af]) nf) ++
        rg.map (normHistoryRow (String.mk [ag]) ng) ∧
    (load_history_file (load_history_file t nf rf) ng rg).filter
        (fun x => decide (x.source_file = nf)) =
      rf.map (normHistoryRow (String.mk [af]) nf) ∧
    (load_history_file (load_history_file t nf rf) ng rg).filter
        (fun x => decide (x.source_file = ng)) =
      rg.map (normHistoryRow (String.mk [ag]) ng) := by
  have hsrcf : ∀ x ∈ rf.map (normHistoryRow (String.mk [af]) nf),
      x.source_file = nf := fun x hx => norm_history_source hx
  have hsrcg : ∀ x ∈ rg.map (normHistoryRow (String.mk [ag]) ng),
      x.source_file = ng := fun x hx => norm_history_source hx
  have hnorm : load_history_file (load_history_file t nf rf) ng rg =
      clearHistory [ng, legacyHistoryName ng]
          (clearHistory [nf, legacyHistoryName nf] t) ++
        rf.map (normHistoryRow (String.mk [af]) nf) ++
        rg.map (normHistoryRow (String.mk [ag]) ng) := by
    rw [load_history_file_some hg _ rg, load_history_file_some hf t rf,
      clearHistory_append]
    have hkeep : clearHistory [ng, legacyHistoryName ng]
        (rf.map (normHistoryRow (String.mk [af]) nf)) =
        rf.map (normHistoryRow (String.mk [af]) nf) := by
      unfold clearHistory
      refine List.filter_eq_self.mpr ?_
      intro x hx
      rw [hsrcf x hx]
      simp only [List.mem_cons, List.mem_singleton, not_or, decide_eq_true_eq]
      exact ⟨hne, history_name_ne_legacy hf hg, by rintro ⟨⟩⟩
    rw [hkeep]
  refine ⟨?_, hnorm, ?_, ?_⟩
  · rw [load_history_file_some hf (load_history_file t nf rf) rf,
      load_history_file_some hf t rf]
    refine import_history_core _ _ t ?_
    intro x hx
    rw [norm_history_source hx]
    exact List.mem_cons_self _ _
  · rw [hnorm, List.filter_append, List.filter_append]
    have h1 : (clearHistory [ng, legacyHistoryName ng]
        (clearHistory [nf, legacyHistoryName nf] t)).filter
          (fun x => decide (x.source_file = nf)) = [] := by
      refine List.filter_eq_nil_iff.mpr ?_
      intro x hx
      have := (mem_clearHistory.mp (mem_clearHistory.mp hx).1).2
      simp only [List.mem_cons, List.mem_singleton, not_or] at this
      simp [this.1]
    have h2 : (rf.map (normHistoryRow (String.mk [af]) nf)).filter
        (fun x => decide (x.source_file = nf)) =
        rf.map (normHistoryRow (String.mk [af]) nf) :=
      List.filter_eq_self.mpr (fun x hx => by simp [hsrcf x hx])
    have h3 : (rg.map (normHistoryRow (String.mk [ag]) ng)).filter
        (fun x => decide (x.source_file = nf)) = [] := by
      refine List.filter_eq_nil_iff.mpr ?_
      intro x hx
      rw [hsrcg x hx]
      simp only [decide_eq_true_eq]
      exact fun h => hne h.symm
    rw [h1, h2, h3, List.nil_append, List.append_nil]
  · rw [hnorm, List.filter_append, List.filter_append]
    have h1 : (clearHistory [ng, legacyHistoryName ng]
        (clearHistory [nf, legacyHistoryName nf] t)).filter
          (fun x => decide (x.source_file = ng)) = [] := by
      refine List.filter_eq_nil_iff.mpr ?_
      intro x hx
      have := (mem_clearHistory.mp hx).2
      simp only [List.mem_cons, List.mem_singleton, not_or] at this
      simp [this.1]
    have h2 : (rf.map (normHistoryRow (String.mk [af]) nf)).filter
        (fun x => decide (x.source_file = ng)) = [] := by
      refine List.filter_eq_nil_iff.mpr ?_
      intro x hx
      rw [hsrcf x hx]
      simp [hne]
    have h3 : (rg.map (normHistoryRow (String.mk [ag]) ng)).filter
        (fun x => decide (x.source_file = ng)) =
        rg.map (normHistoryRow (String.mk [ag]) ng) :=
      List.filter_eq_self.mpr (fun x hx => by simp [hsrcg x hx])
    rw [h1, h2, h3, List.nil_append, List.nil_append]

/-- C10.  Attribution invariant: the importer writes rows attributed only to
the processed file's own (new-convention) name, never to its legacy alias —
after an import, every table row either predates the import (a surviving
old row) or carries the file's own name as `source_file`; since the legacy
alias differs from the file's name, no row written by the run is
legacy-attributed. -/
theorem c10_attribution_invariant (name name' : String) (d d' : List Char)
    (a a' : Char)
    (hc : matchCurrentName name = some (d, a))
    (hh : matchHistoryName name' = some (d', a')) :
    legacyCurrentName name ≠ name ∧
    legacyHistoryName name' ≠ name' ∧
    (∀ (t : List CurrentRow) (rows : List RawRow) (x : CurrentRow),
      x ∈ load_current_file t name rows → x ∈ t ∨ x.source_file = name) ∧
    (∀ (t : List CurrentRow) (rows : List RawRow) (x : CurrentRow),
      x ∈ load_current_file t name rows → x ∉ t →
        x.source_file ≠ legacyCurrentName name) ∧
    (∀ (t : List HistoryRow) (rows : List RawRow) (x : HistoryRow),
      x ∈ load_history_file t name' rows → x ∈ t ∨ x.source_file = name') ∧
    (∀ (t : List HistoryRow) (rows : List RawRow) (x : HistoryRow),
      x ∈ load_history_file t name' rows → x ∉ t →
        x.source_file ≠ legacyHistoryName name') := by
  have hcmem : ∀ (t : List CurrentRow) (rows : List RawRow) (x : CurrentRow),
      x ∈ load_current_file t name rows → x ∈ t ∨ x.source_file = name := by
    intro t rows x hx
    rw [load_current_file_some hc t rows] at hx
    rcases mem_foldl_upsert _ hx with h | h
    · exact Or.inl (mem_clearCurrent.mp h).1
    · exact Or.inr (norm_current_source h)
  have hhmem : ∀ (t : List HistoryRow) (rows : List RawRow) (x : HistoryRow),
      x ∈ load_history_file t name' rows → x ∈ t ∨ x.source_file = name' := by
    intro t rows x hx
    rw [load_history_file_some hh t rows] at hx
    rcases List.mem_append.mp hx with h | h
    · exact Or.inl (mem_clearHistory.mp h).1
    · exact Or.inr (norm_history_source h)
  refine ⟨legacyCurrentName_ne hc, legacyHistoryName_ne hh, hcmem, ?_, hhmem, ?_⟩
  · intro t rows x hx hxt
    rcases hcmem t rows x hx with h | h
    · exact absurd h hxt
    · rw [h]
      exact fun he => legacyCurrentName_ne hc he.symm
  · intro t rows x hx hxt
    rcases hhmem t rows x hx with h | h
    · exact absurd h hxt
    · rw [h]
      exact fun he => legacyHistoryName_ne hh he.symm

/-! ## Naming recognition against the spec's declarative description -/

theorem parseDateDiv_inv {l d : List Char} {a : Char}
    (h : parseDateDiv l = some (d, a)) :
    ∃ d1 d2 d3 d4 d5 d6 d7 d8 : Char,
      (l = [d1, d2, d3, d4, d5, d6, d7, d8, '_', a, '.', 'c', 's', 'v'] ∨
       l = [d1, d2, d3, d4, d5, d6, d7, d8, '_', a, '.', 'c', 's', 'v', '\n']) ∧
      d = [d1, d2, d3, d4, d5, d6, d7, d8] ∧
      (isPyDigit d1 ∧ isPyDigit d2 ∧ isPyDigit d3 ∧ isPyDigit d4 ∧
       isPyDigit d5 ∧ isPyDigit d6 ∧ isPyDigit d7 ∧ isPyDigit d8) ∧
      isDivision a := by
  unfold parseDateDiv at h
  split at h
  · rename_i l0 e1 e2 e3 e4 e5 e6 e7 e8 e9
    split at h
    · rename_i hcond
      rw [Option.some.injEq, Prod.mk.injEq] at h
      obtain ⟨h1, h2⟩ := h
      subst h2
      simp only [Bool.and_eq_true] at hcond
      obtain ⟨⟨⟨⟨⟨⟨⟨⟨g1, g2⟩, g3⟩, g4⟩, g5⟩, g6⟩, g7⟩, g8⟩, g9⟩ := hcond
      exact ⟨e1, e2, e3, e4, e5, e6, e7, e8, Or.inl rfl, h1.symm,
        ⟨g1, g2, g3, g4, g5, g6, g7, g8⟩, g9⟩
    · exact absurd h (by simp)
  · rename_i l0 e1 e2 e3 e4 e5 e6 e7 e8 e9
    split at h
    · rename_i hcond
      rw [Option.some.injEq, Prod.mk.injEq] at h
      obtain ⟨h1, h2⟩ := h
      subst h2
      simp only [Bool.and_eq_true] at hcond
      obtain ⟨⟨⟨⟨⟨⟨⟨⟨g1, g2⟩, g3⟩, g4⟩, g5⟩, g6⟩, g7⟩, g8⟩, g9⟩ := hcond
      exact ⟨e1, e2, e3, e4, e5, e6, e7, e8, Or.inr rfl, h1.symm,
        ⟨g1, g2, g3, g4, g5, g6, g7, g8⟩, g9⟩
    · exact absurd h (by simp)
  · exact absurd h (by simp)

theorem parseDateDiv_build (d1 d2 d3 d4 d5 d6 d7 d8 a : Char)
    (h1 : isPyDigit d1) (h2 : isPyDigit d2) (h3 : isPyDigit d3)
    (h4 : isPyDigit d4) (h5 : isPyDigit d5) (h6 : isPyDigit d6)
    (h7 : isPyDigit d7) (h8 : isPyDigit d8) (hdiv : isDivision a) :
    parseDateDiv [d1, d2, d3, d4, d5, d6, d7, d8, '_', a, '.', 'c', 's', 'v'] =
      some ([d1, d2, d3, d4, d5, d6, d7, d8], a) := by
  unfold parseDateDiv
  simp [h1, h2, h3, h4, h5, h6, h7, h8, hdiv]

theorem parseDateDiv_build_nl (d1 d2 d3 d4 d5 d6 d7 d8 a : Char)
    (h1 : isPyDigit d1) (h2 : isPyDigit d2) (h3 : isPyDigit d3)
    (h4 : isPyDigit d4) (h5 : isPyDigit d5) (h6 : isPyDigit d6)
    (h7 : isPyDigit d7) (h8 : isPyDigit d8) (hdiv : isDivision a) :
    parseDateDiv
        [d1, d2, d3, d4, d5, d6, d7, d8, '_', a, '.', 'c', 's', 'v', '\n'] =
      some ([d1, d2, d3, d4, d5, d6, d7, d8], a) := by
  unfold parseDateDiv
  simp [h1, h2, h3, h4, h5, h6, h7, h8, hdiv]

theorem stripFront_append (pat rest : List Char) :
    stripFront pat (pat ++ rest) = some rest := by
  unfold stripFront
  rw [if_pos (List.isPrefixOf_iff_prefix.mpr ⟨rest, rfl⟩), List.drop_left]

theorem isDivision_iff {a : Char} : isDivision a = true ↔ '1' ≤ a ∧ a ≤ '8' := by
  simp [isDivision]

/-- C7 counterexample: recognition is not equivalent to the claimed exact
shape.  The code classifies as Current both a name carrying one trailing
newline (Python's `$` matches before a final newline, and the name does not
even end in `.csv`) and a name whose date digits are Arabic-Indic (Python's
`\d` is any Unicode decimal digit, not `0-9`), while neither name has the
shape the claim asserts. -/
theorem c7_counterexample :
    (matchCurrentName "v85_20260101_1.csv\n").isSome = true ∧
    ¬ specCurrentName ("v85_20260101_1.csv\n".toList) ∧
    (matchCurrentName "v85_٢٠٢٦٠١٠١_1.csv").isSome = true ∧
    ¬ specCurrentName ("v85_٢٠٢٦٠١٠١_1.csv".toList) := by
  refine ⟨by decide, ?_, by decide, ?_⟩
  · rintro ⟨d1, d2, d3, d4, d5, d6, d7, d8, a, hl, -, -, -⟩
    have hlen := congrArg List.length hl
    rw [show ("v85_20260101_1.csv\n".toList).length = 19 from rfl] at hlen
    simp at hlen
  · rintro ⟨d1, d2, d3, d4, d5, d6, d7, d8, a, hl, hdig, -, -⟩
    have h4 : "v85_٢٠٢٦٠١٠١_1.csv".toList[4]? = some d1 := by
      rw [hl]
      rfl
    have h5 : (some '٢' : Option Char) = some d1 := h4
    injection h5 with h5
    rw [← h5] at hdig
    exact absurd hdig.1 (by decide)

/-- C7 (amended).  Naming recognition: a name is classified Current exactly
when it is the namespace token, an underscore, eight Unicode decimal digit
characters, an underscore, a division digit 1–8 and `.csv`, ending the name
or followed by exactly one final newline (History analogously, with the
literal `history` segment); any eight decimal digits are accepted — no
calendar validation — and the date is converted to ISO by pure digit
slicing. -/
theorem c7_name_recognition_amended (s : String) :
    ((matchCurrentName s).isSome = true ↔ specCurrentNameRe s.toList) ∧
    ((matchHistoryName s).isSome = true ↔ specHistoryNameRe s.toList) ∧
    (∀ d1 d2 d3 d4 d5 d6 d7 d8 : Char,
      yyyymmdd_to_iso [d1, d2, d3, d4, d5, d6, d7, d8] =
        String.mk [d1, d2, d3, d4, '-', d5, d6, '-', d7, d8]) := by
  refine ⟨⟨?_, ?_⟩, ⟨?_, ?_⟩, fun d1 d2 d3 d4 d5 d6 d7 d8 => rfl⟩
  · intro h
    obtain ⟨⟨dd, aa⟩, hm⟩ := Option.isSome_iff_exists.mp h
    unfold matchCurrentName at hm
    cases hsf : stripFront ['v', '8', '5', '_'] s.toList with
    | none => rw [hsf] at hm; exact absurd hm (by simp)
    | some rest =>
      rw [hsf, Option.some_bind] at hm
      obtain ⟨e1, e2, e3, e4, e5, e6, e7, e8, hrest, -, hdig, hdiv⟩ :=
        parseDateDiv_inv hm
      refine ⟨e1, e2, e3, e4, e5, e6, e7, e8, aa, ?_, hdig,
        (isDivision_iff.mp hdiv).1, (isDivision_iff.mp hdiv).2⟩
      rcases hrest with hrest | hrest
      · exact Or.inl (by rw [stripFront_some hsf, hrest]; rfl)
      · exact Or.inr (by rw [stripFront_some hsf, hrest]; rfl)
  · rintro ⟨d1, d2, d3, d4, d5, d6, d7, d8, a, hl, hdig, ha1, ha2⟩
    rcases hl with hl | hl
    · unfold matchCurrentName
      rw [hl]
      show ((stripFront ['v', '8', '5', '_']
        (['v', '8', '5', '_'] ++
          [d1, d2, d3, d4, d5, d6, d7, d8, '_', a, '.', 'c', 's', 'v'])).bind
            parseDateDiv).isSome = true
      rw [stripFront_append, Option.some_bind,
        parseDateDiv_build d1 d2 d3 d4 d5 d6 d7 d8 a hdig.1 hdig.2.1
          hdig.2.2.1 hdig.2.2.2.1 hdig.2.2.2.2.1 hdig.2.2.2.2.2.1
          hdig.2.2.2.2.2.2.1 hdig.2.2.2.2.2.2.2 (isDivision_iff.mpr ⟨ha1, ha2⟩)]
      rfl
    · unfold matchCurrentName
      rw [hl]
      show ((stripFront ['v', '8', '5', '_']
        (['v', '8', '5', '_'] ++
          [d1, d2, d3, d4, d5, d6, d7, d8, '_', a,
            '.', 'c', 's', 'v', '\n'])).bind parseDateDiv).isSome = true
      rw [stripFront_append, Option.some_bind,
        parseDateDiv_build_nl d1 d2 d3 d4 d5 d6 d7 d8 a hdig.1 hdig.2.1
          hdig.2.2.1 hdig.2.2.2.1 hdig.2.2.2.2.1 hdig.2.2.2.2.2.1
          hdig.2.2.2.2.2.2.1 hdig.2.2.2.2.2.2.2 (isDivision_iff.mpr ⟨ha1, ha2⟩)]
      rfl
  · intro h
    obtain ⟨⟨dd, aa⟩, hm⟩ := Option.isSome_iff_exists.mp h
    unfold matchHistoryName at hm
    cases hsf : stripFront "v85_history_".toList s.toList with
    | none => rw [hsf] at hm; exact absurd hm (by simp)
    | some rest =>
      rw [hsf, Option.some_bind] at hm
      obtain ⟨e1, e2, e3, e4, e5, e6, e7, e8, hrest, -, hdig, hdiv⟩ :=
        parseDateDiv_inv hm
      refine ⟨e1, e2, e3, e4, e5, e6, e7, e8, aa, ?_, hdig,
        (isDivision_iff.mp hdiv).1, (isDivision_iff.mp hdiv).2⟩
      rcases hrest with hrest | hrest
      · exact Or.inl (by rw [stripFront_some hsf, hrest]; rfl)
      · exact Or.inr (by rw [stripFront_some hsf, hrest]; rfl)
  · rintro ⟨d1, d2, d3, d4, d5, d6, d7, d8, a, hl, hdig, ha1, ha2⟩
    rcases hl with hl | hl
    · unfold matchHistoryName
      rw [hl]
      show ((stripFront "v85_history_".toList
        ("v85_history_".toList ++
          [d1, d2, d3, d4, d5, d6, d7, d8, '_', a, '.', 'c', 's', 'v'])).bind
            parseDateDiv).isSome = true
      rw [stripFront_append, Option.some_bind,
        parseDateDiv_build d1 d2 d3 d4 d5 d6 d7 d8 a hdig.1 hdig.2.1
          hdig.2.2.1 hdig.2.2.2.1 hdig.2.2.2.2.1 hdig.2.2.2.2.2.1
          hdig.2.2.2.2.2.2.1 hdig.2.2.2.2.2.2.2 (isDivision_iff.mpr ⟨ha1, ha2⟩)]
      rfl
    · unfold matchHistoryName
      rw [hl]
      show ((stripFront "v85_history_".toList
        ("v85_history_".toList ++
          [d1, d2, d3, d4, d5, d6, d7, d8, '_', a,
            '.', 'c', 's', 'v', '\n'])).bind parseDateDiv).isSome = true
      rw [stripFront_append, Option.some_bind,
        parseDateDiv_build_nl d1 d2 d3 d4 d5 d6 d7 d8 a hdig.1 hdig.2.1
          hdig.2.2.1 hdig.2.2.2.1 hdig.2.2.2.2.1 hdig.2.2.2.2.2.1
          hdig.2.2.2.2.2.2.1 hdig.2.2.2.2.2.2.2 (isDivision_iff.mpr ⟨ha1, ha2⟩)]
      rfl

/-! ## Run-level lemmas -/

theorem mem_sortLt {α : Type} {lt : α → α → Bool} {x : α} {l : List α}
    (hx : x ∈ l) : x ∈ sortLt lt l :=
  (sortLt_perm lt l).mem_iff.mpr hx

theorem runCurrentFiles_error {files : List DirEntry} {p : DirEntry}
    (hp : p ∈ files) (hbad : p.content = none) :
    ∀ st, ∃ e, runCurrentFiles st files = .error e := by
  induction files with
  | nil => exact absurd hp (List.not_mem_nil p)
  | cons q qs ih =>
    intro st
    cases hq : q.content with
    | none => exact ⟨q.name, by rw [runCurrentFiles, hq]⟩
    | some rows =>
      have hpqs : p ∈ qs := by
        rcases List.mem_cons.mp hp with h | h
        · subst h; rw [hbad] at hq; exact absurd hq (by simp)
        · exact h
      obtain ⟨e, he⟩ := ih hpqs (load_current_file st.1 q.name rows, st.2 + rows.length)
      exact ⟨e, by rw [runCurrentFiles, hq]; exact he⟩

theorem runHistoryFiles_error {files : List DirEntry} {p : DirEntry}
    (hp : p ∈ files) (hbad : p.content = none) :
    ∀ st, ∃ e, runHistoryFiles st files = .error e := by
  induction files with
  | nil => exact absurd hp (List.not_mem_nil p)
  | cons q qs ih =>
    intro st
    cases hq : q.content with
    | none => exact ⟨q.name, by rw [runHistoryFiles, hq]⟩
    | some rows =>
      have hpqs : p ∈ qs := by
        rcases List.mem_cons.mp hp with h | h
        · subst h; rw [hbad] at hq; exact absurd hq (by simp)
        · exact h
      obtain ⟨e, he⟩ := ih hpqs (load_history_file st.1 q.name rows, st.2 + rows.length)
      exact ⟨e, by rw [runHistoryFiles, hq]; exact he⟩

/-- C6.  Atomicity on parse failure: if any recognized file in the directory
cannot be read as a CSV (its content raises), the whole default run is a
fatal error, and the transaction is rolled back: the store after `main` is
exactly the store before — no delete or write of the run becomes visible. -/
theorem c6_atomic_on_parse_failure (db : DB) (dir : List DirEntry) (p : DirEntry)
    (hp : p ∈ dir) (hf : p.isFile = true)
    (hrec : (matchCurrentName p.name).isSome = true ∨
      (matchHistoryName p.name).isSome = true)
    (hbad : p.content = none) :
    (∃ e, runBody db dir false = .error e) ∧ mainRun db dir false = db := by
  have hmain : (∃ e, runBody db dir false = .error e) →
      mainRun db dir false = db := by
    rintro ⟨e, he⟩
    unfold mainRun
    rw [he]
  refine (fun h => ⟨h, hmain h⟩) ?_
  rcases hrec with hrc | hrh
  · have hpfiles : p ∈ currentFilesOf dir :=
      mem_sortLt (List.mem_filter.mpr ⟨hp, by rw [hf, hrc]; rfl⟩)
    obtain ⟨e, he⟩ := runCurrentFiles_error hpfiles hbad (db.v85, 0)
    refine ⟨e, ?_⟩
    unfold runBody load_current
    rw [he]
    rfl
  · have hpfiles : p ∈ historyFilesOf dir :=
      mem_sortLt (List.mem_filter.mpr ⟨hp, by rw [hf, hrh]; rfl⟩)
    cases hlc : load_current db.v85 dir with
    | error e =>
      refine ⟨e, ?_⟩
      unfold runBody
      rw [hlc]
      rfl
    | ok v =>
      obtain ⟨e, he⟩ := runHistoryFiles_error hpfiles hbad (db.v85_history, 0)
      refine ⟨e, ?_⟩
      unfold runBody
      rw [hlc]
      obtain ⟨cur, cf, cr⟩ := v
      show (load_history db.v85_history dir).bind _ = Except.error e
      unfold load_history
      rw [he]
      rfl

/-- C8.  Unrecognized files ignored: an entry whose name matches neither
pattern is invisible to the run wherever it sits in the directory — it is
never selected for either kind, never read (even unreadable content raises
nothing), contributes no rows and no file count, and the run's result is
that of the directory without it. -/
theorem c8_unrecognized_skipped (db : DB) (l1 l2 : List DirEntry) (e : DirEntry)
    (skip : Bool)
    (h1 : matchCurrentName e.name = none) (h2 : matchHistoryName e.name = none) :
    currentFilesOf (l1 ++ e :: l2) = currentFilesOf (l1 ++ l2) ∧
    historyFilesOf (l1 ++ e :: l2) = historyFilesOf (l1 ++ l2) ∧
    runBody db (l1 ++ e :: l2) skip = runBody db (l1 ++ l2) skip := by
  have hc : currentFilesOf (l1 ++ e :: l2) = currentFilesOf (l1 ++ l2) := by
    unfold currentFilesOf
    rw [List.filter_append, List.filter_append,
      List.filter_cons_of_neg (by rw [h1]; simp)]
  have hh : historyFilesOf (l1 ++ e :: l2) = historyFilesOf (l1 ++ l2) := by
    unfold historyFilesOf
    rw [List.filter_append, List.filter_append,
      List.filter_cons_of_neg (by rw [h2]; simp)]
  refine ⟨hc, hh, ?_⟩
  unfold runBody load_current load_history
  rw [hc, hh]

/-- C9.  Normalizer totality: for every raw CSV row — any label/value
mapping, values possibly null, any labels missing — normalization is a
total function that rejects nothing: each looked-up value is the stored
text defaulted to `""` (absent label or null value give `""`), every field
of both normalized records is the whitespace-trimmed defaulted lookup (the
`str(...)` coercions on `placering`/`odds`/`pris` act on already-textual
CSV values), and every raw row yields exactly one normalized record. -/
theorem c9_normalizer_total (datum avd name : String) :
    (∀ (r : RawRow) (k : String),
      rawGet r k = ((List.lookup k r).join).getD "") ∧
    (∀ (r : RawRow) (k : String), List.lookup k r = none → rawGet r k = "") ∧
    (∀ (r : RawRow) (k : String), List.lookup k r = some none → rawGet r k = "") ∧
    (∀ r : RawRow, normCurrentRow datum avd name r =
      { datum := datum
        avd := avd
        startnummer := pyStrip (rawGet r "startnummer")
        hastnamn := pyStrip (rawGet r "hästnamn")
        kusk := pyStrip (rawGet r "kusk")
        tranare := pyStrip (rawGet r "tränare")
        v85_procent := pyStrip (rawGet r "v85%")
        v_odds := pyStrip (rawGet r "v-odds")
        vagn := pyStrip (rawGet r "vagn")
        source_file := name }) ∧
    (∀ r : RawRow, normHistoryRow avd name r =
      { datum := pyStrip (rawGet r "datum")
        avd := avd
        hastnamn := pyStrip (rawGet r "hästnamn")
        bana := pyStrip (rawGet r "bana")
        kusk := pyStrip (rawGet r "kusk")
        placering := pyStrip (rawGet r "placering")
        distans_spor := pyStrip (rawGet r "distans:spår")
        km_tid := pyStrip (rawGet r "KM-tid")
        skor := pyStrip (rawGet r "skor")
        odds := pyStrip (rawGet r "odds")
        pris := pyStrip (rawGet r "pris")
        vagn := pyStrip (rawGet r "vagn")
        source_file := name }) ∧
    (∀ rows : List RawRow,
      (rows.map (normCurrentRow datum avd name)).length = rows.length) ∧
    (∀ rows : List RawRow,
      (rows.map (normHistoryRow avd name)).length = rows.length) := by
  refine ⟨?_, ?_, ?_, fun r => rfl, fun r => rfl,
    fun rows => List.length_map rows _, fun rows => List.length_map rows _⟩
  · intro r k
    unfold rawGet
    cases h : List.lookup k r with
    | none => rfl
    | some v => cases v <;> rfl
  · intro r k h
    unfold rawGet
    rw [h]
  · intro r k h
    unfold rawGet
    rw [h]

/-! ## Retention policy lemmas -/

theorem collectStep_invalid {maxN : Nat} {d : List (String × List HistOutRow)}
    {s : StartEntry} (h : validId s.horseId = false) :
    collectStep maxN d s = d := by
  cases hid : s.horseId with
  | none => simp [collectStep, hid]
  | some i =>
    rw [hid] at h
    simp only [validId] at h
    simp [collectStep, hid, h]

theorem collectStep_valid {maxN : Nat} {d : List (String × List HistOutRow)}
    {s : StartEntry} {i : Nat} (hid : s.horseId = some i) (hi : i ≠ 0) :
    collectStep maxN d s = dictSet (effKey s) (cappedRows maxN s) d := by
  simp only [collectStep, hid]
  rw [if_pos (by simpa using hi)]
  simp only [effKey, hid, cappedRows]

theorem dictSet_append {k : String} {v : List HistOutRow}
    {d : List (String × List HistOutRow)} (h : ∀ e ∈ d, e.1 ≠ k) :
    dictSet k v d = d ++ [(k, v)] := by
  unfold dictSet
  rw [if_neg]
  intro hc
  rw [List.any_eq_true] at hc
  obtain ⟨e, he, hek⟩ := hc
  exact h e he (by simpa using hek)

/-- With pairwise-distinct effective names, the `by_horse` fold is the list
of (effective name, retained rows) pairs of the valid starts, in order. -/
theorem foldl_collectStep (maxN : Nat) (starts : List StartEntry) :
    ∀ acc : List (String × List HistOutRow),
      (acc.map Prod.fst ++ (validStarts starts).map effKey).Nodup →
      starts.foldl (collectStep maxN) acc =
        acc ++ (validStarts starts).map (fun s => (effKey s, cappedRows maxN s)) := by
  induction starts with
  | nil =>
    intro acc _
    simp [validStarts]
  | cons s ss ih =>
    intro acc hnd
    rw [List.foldl_cons]
    cases hv : validId s.horseId with
    | false =>
      rw [collectStep_invalid hv]
      have hvs : validStarts (s :: ss) = validStarts ss := by
        unfold validStarts
        rw [List.filter_cons_of_neg (by rw [hv]; rintro ⟨⟩)]
      rw [hvs] at hnd
      rw [ih acc hnd, hvs]
    | true =>
      obtain ⟨i, hid, hi⟩ : ∃ i, s.horseId = some i ∧ i ≠ 0 := by
        unfold validId at hv
        cases hid : s.horseId with
        | none => rw [hid] at hv; exact absurd hv (by simp)
        | some j =>
          rw [hid] at hv
          exact ⟨j, rfl, by simpa using hv⟩
      have hvs : validStarts (s :: ss) = s :: validStarts ss := by
        unfold validStarts
        rw [List.filter_cons_of_pos (by rw [hv])]
      rw [hvs] at hnd
      rw [List.map_cons] at hnd
      have hknotin : ∀ e ∈ acc, e.1 ≠ effKey s := by
        intro e he hek
        have hdisj := (List.nodup_append.mp hnd).2.2
        exact hdisj (List.mem_map_of_mem Prod.fst he)
          (hek ▸ List.mem_cons_self _ _)
      rw [collectStep_valid hid hi, dictSet_append hknotin]
      have hnd' : ((acc ++ [(effKey s, cappedRows maxN s)]).map Prod.fst ++
          (validStarts ss).map effKey).Nodup := by
        rw [List.map_append, List.append_assoc]
        exact hnd
      rw [ih _ hnd', hvs, List.map_cons, List.append_assoc]
      rfl

theorem lookup_map_assoc {maxN : Nat} {l : List StartEntry}
    (hnodup : (l.map effKey).Nodup) {s : StartEntry} (hs : s ∈ l) :
    List.lookup (effKey s) (l.map (fun u => (effKey u, cappedRows maxN u))) =
      some (cappedRows maxN s) := by
  induction l with
  | nil => exact absurd hs (List.not_mem_nil s)
  | cons u us ih =>
    rw [List.map_cons] at hnodup ⊢
    rw [List.nodup_cons] at hnodup
    rcases List.mem_cons.mp hs with h | h
    · subst h
      rw [List.lookup_cons_self]
    · have hne : (effKey s == effKey u) = false := by
        rw [beq_eq_false_iff_ne]
        intro he
        exact hnodup.1 (he ▸ List.mem_map_of_mem effKey h)
      rw [List.lookup_cons, hne, ih hnodup.2 h]

theorem mem_cappedRows {maxN : Nat} {s : StartEntry} {x : HistOutRow}
    (hx : x ∈ cappedRows maxN s) : x.hastnamn = effKey s := by
  unfold cappedRows at hx
  have h1 : x ∈ sortByDatumDesc (s.results.map (buildRow (effKey s))) :=
    List.mem_of_mem_take hx
  have h2 : x ∈ s.results.map (buildRow (effKey s)) :=
    (sortLt_perm _ _).mem_iff.mp h1
  obtain ⟨rec, -, hrec⟩ := List.mem_map.mp h2
  rw [← hrec]
  rfl

theorem const_pairwise_le {l : List String} {k : String}
    (h : ∀ x ∈ l, x = k) : l.Pairwise (· ≤ ·) := by
  induction l with
  | nil => exact List.Pairwise.nil
  | cons x xs ih =>
    rw [List.pairwise_cons]
    refine ⟨?_, ih (fun y hy => h y (List.mem_cons_of_mem x hy))⟩
    intro y hy
    rw [h x (List.mem_cons_self x xs), h y (List.mem_cons_of_mem x hy)]

/-- Filtering the concatenated per-horse buckets by one present horse name
yields exactly that horse's bucket. -/
theorem filter_flatten_buckets (keys : List String) (f : String → List HistOutRow)
    (h : String) (hkeys : keys.Nodup) (hh : h ∈ keys)
    (hbucket : ∀ k ∈ keys, ∀ x ∈ f k, x.hastnamn = k) :
    ((keys.map f).flatten.filter (fun r => decide (r.hastnamn = h))) = f h := by
  induction keys with
  | nil => exact absurd hh (List.not_mem_nil h)
  | cons k ks ih =>
    rw [List.nodup_cons] at hkeys
    rw [List.map_cons, List.flatten_cons, List.filter_append]
    by_cases hk : k = h
    · subst hk
      have h1 : (f k).filter (fun r => decide (r.hastnamn = k)) = f k :=
        List.filter_eq_self.mpr (fun x hx => by
          simp [hbucket k (List.mem_cons_self k ks) x hx])
      have h2 : ((ks.map f).flatten.filter (fun r => decide (r.hastnamn = k))) = [] := by
        refine List.filter_eq_nil_iff.mpr ?_
        intro x hx
        obtain ⟨lx, hlx, hxlx⟩ := List.mem_flatten.mp hx
        obtain ⟨k', hk', hfk'⟩ := List.mem_map.mp hlx
        have := hbucket k' (List.mem_cons_of_mem k hk') x (hfk' ▸ hxlx)
        rw [this]
        simp only [decide_eq_true_eq]
        exact fun he => hkeys.1 (he ▸ hk')
      rw [h1, h2, List.append_nil]
    · have h1 : (f k).filter (fun r => decide (r.hastnamn = h)) = [] := by
        refine List.filter_eq_nil_iff.mpr ?_
        intro x hx
        rw [hbucket k (List.mem_cons_self k ks) x hx]
        simp only [decide_eq_true_eq]
        exact hk
      have hhks : h ∈ ks := by
        rcases List.mem_cons.mp hh with he | he
        · exact absurd he.symm hk
        · exact he
      rw [h1, List.nil_append]
      exact ih hkeys.2 hhks
        (fun k' hk' => hbucket k' (List.mem_cons_of_mem k hk'))

theorem sortByDatumDesc_perm (l : List HistOutRow) :
    List.Perm (sortByDatumDesc l) l :=
  sortLt_perm _ l

theorem sortByDatumDesc_sorted (l : List HistOutRow) :
    (sortByDatumDesc l).Pairwise (fun x y => y.datum ≤ x.datum) := by
  have h := @sortLt_pairwise HistOutRow
    (fun a b => decide (b.datum < a.datum))
    (fun a b hab => by
      rw [decide_eq_true_eq] at hab
      rw [decide_eq_false_iff_not]
      exact lt_asymm hab)
    (fun a b c hba hcb => by
      rw [decide_eq_false_iff_not] at hba hcb
      rw [decide_eq_false_iff_not]
      rw [not_lt] at hba hcb ⊢
      exact hcb.trans hba)
    l
  refine h.imp ?_
  intro a b hab
  rw [decide_eq_false_iff_not, not_lt] at hab
  exact hab

theorem sortByDatumDesc_stable (l : List HistOutRow) (v : String) :
    (sortByDatumDesc l).filter (fun x => decide (x.datum = v)) =
      l.filter (fun x => decide (x.datum = v)) := by
  refine sortLt_filter ?_ l
  intro a b ha hb
  rw [decide_eq_true_eq] at ha hb
  rw [decide_eq_false_iff_not, ha, hb]
  exact lt_irrefl v

theorem sortKeys_pairwise (l : List String) :
    (sortLt (fun a b => decide (a < b)) l).Pairwise (· ≤ ·) := by
  have h := @sortLt_pairwise String
    (fun a b : String => decide (a < b))
    (fun a b hab => by
      rw [decide_eq_true_eq] at hab
      rw [decide_eq_false_iff_not]
      exact lt_asymm hab)
    (fun a b c hba hcb => by
      rw [decide_eq_false_iff_not] at hba hcb
      rw [decide_eq_false_iff_not]
      rw [not_lt] at hba hcb ⊢
      exact hba.trans hcb)
    l
  refine h.imp ?_
  intro a b hab
  rw [decide_eq_false_iff_not, not_lt] at hab
  exact hab

/-- `collect_history_rows` unfolded: flatten the per-horse buckets over the
alphabetically sorted keys of the `by_horse` association list. -/
theorem collect_history_rows_eq (starts : List StartEntry) (maxN : Nat) :
    collect_history_rows starts maxN =
      ((sortLt (fun a b => decide (a < b))
          ((starts.foldl (collectStep maxN) []).map Prod.fst)).map
        (fun k => (List.lookup k (starts.foldl (collectStep maxN) [])).getD [])).flatten :=
  rfl

/-- C5.  Retention policy: for every fetched result set (with distinct
effective horse names) and every cap `N ≥ 1`, the collector keeps per horse
exactly the first `N` rows of that horse's rows sorted by date descending —
a stable sort: a permutation of the input, pairwise newest-first, with
ties left in input order — and lists horses in ascending alphabetical
order, each horse's retained rows newest-first; the reconciliation engine
performs no truncation: `load_history` inserts every row of the batch. -/
theorem c5_retention_policy (starts : List StartEntry) (N : Nat) (_hN : 1 ≤ N)
    (hnodup : ((validStarts starts).map effKey).Nodup)
    (s : StartEntry) (i : Nat) (hs : s ∈ starts) (hid : s.horseId = some i)
    (hi : i ≠ 0) :
    (collect_history_rows starts N).filter
        (fun r => decide (r.hastnamn = effName s i)) =
      (sortByDatumDesc (s.results.map (buildRow (effName s i)))).take N ∧
    List.Perm (sortByDatumDesc (s.results.map (buildRow (effName s i))))
      (s.results.map (buildRow (effName s i))) ∧
    (sortByDatumDesc (s.results.map (buildRow (effName s i)))).Pairwise
      (fun x y => y.datum ≤ x.datum) ∧
    ((sortByDatumDesc (s.results.map (buildRow (effName s i)))).take N).Pairwise
      (fun x y => y.datum ≤ x.datum) ∧
    (∀ v : String,
      (sortByDatumDesc (s.results.map (buildRow (effName s i)))).filter
          (fun x => decide (x.datum = v)) =
        (s.results.map (buildRow (effName s i))).filter
          (fun x => decide (x.datum = v))) ∧
    ((collect_history_rows starts N).map (fun r => r.hastnamn)).Pairwise (· ≤ ·) ∧
    (∀ (t : List HistoryRow) (nm : String) (d : List Char) (a : Char)
        (rows : List RawRow), matchHistoryName nm = some (d, a) →
      (load_history_file t nm rows).length =
        (clearHistory [nm, legacyHistoryName nm] t).length + rows.length) := by
  have heff : effKey s = effName s i := by simp [effKey, hid]
  have hvalid : validId s.horseId = true := by simp [validId, hid, hi]
  have hsv : s ∈ validStarts starts := List.mem_filter.mpr ⟨hs, hvalid⟩
  have hby : starts.foldl (collectStep N) [] =
      (validStarts starts).map (fun u => (effKey u, cappedRows N u)) :=
    foldl_collectStep N starts [] (by simpa using hnodup)
  have hmapfst : ((validStarts starts).map
        (fun u => (effKey u, cappedRows N u))).map Prod.fst =
      (validStarts starts).map effKey := by
    rw [List.map_map]
    rfl
  have hkeysnd : (sortLt (fun a b => decide (a < b))
      ((validStarts starts).map effKey)).Nodup :=
    ((sortLt_perm _ _).nodup_iff).mpr hnodup
  have hmemkeys : effKey s ∈ sortLt (fun a b => decide (a < b))
      ((validStarts starts).map effKey) :=
    mem_sortLt (List.mem_map_of_mem effKey hsv)
  have hbucket : ∀ k ∈ sortLt (fun a b => decide (a < b))
        ((validStarts starts).map effKey),
      ∀ x ∈ (List.lookup k ((validStarts starts).map
        (fun u => (effKey u, cappedRows N u)))).getD [], x.hastnamn = k := by
    intro k hk x hx
    have hknames : k ∈ (validStarts starts).map effKey :=
      (sortLt_perm _ _).mem_iff.mp hk
    obtain ⟨u, hu, huk⟩ := List.mem_map.mp hknames
    subst huk
    rw [lookup_map_assoc hnodup hu] at hx
    exact mem_cappedRows hx
  have hout : collect_history_rows starts N =
      ((sortLt (fun a b => decide (a < b)) ((validStarts starts).map effKey)).map
        (fun k => (List.lookup k ((validStarts starts).map
          (fun u => (effKey u, cappedRows N u)))).getD [])).flatten := by
    rw [collect_history_rows_eq, hby, hmapfst]
  refine ⟨?_, sortByDatumDesc_perm _, sortByDatumDesc_sorted _,
    List.Pairwise.sublist (List.take_sublist _ _) (sortByDatumDesc_sorted _),
    sortByDatumDesc_stable _, ?_, ?_⟩
  · rw [← heff, hout]
    rw [filter_flatten_buckets _ _ (effKey s) hkeysnd hmemkeys hbucket,
      lookup_map_assoc hnodup hsv]
    rfl
  · rw [hout, List.map_flatten]
    rw [List.pairwise_flatten]
    constructor
    · intro l' hl'
      obtain ⟨l'', hl'', hmap⟩ := List.mem_map.mp hl'
      obtain ⟨k, hk, hfk⟩ := List.mem_map.mp hl''
      refine @const_pairwise_le _ k ?_
      intro x hx
      rw [← hmap, ← hfk] at hx
      obtain ⟨y, hy, hxy⟩ := List.mem_map.mp hx
      rw [← hxy]
      exact hbucket k hk y hy
    · rw [List.map_map, List.pairwise_map]
      refine List.Pairwise.imp_of_mem ?_ (sortKeys_pairwise _)
      intro a b ha hb hab x hx y hy
      obtain ⟨x', hx', hxx⟩ := List.mem_map.mp hx
      obtain ⟨y', hy', hyy⟩ := List.mem_map.mp hy
      rw [← hxx, ← hyy, hbucket a ha x' hx', hbucket b hb y' hy']
      exact hab
  · intro t nm d a rows hm
    rw [load_history_file_some hm]
    rw [List.length_append, List.length_map]

/-! ## Witnesses -/

/-- C1 witness at a concrete file and the empty store. -/
theorem c1_witness :
    List.Perm (load_current_file (load_current_file [] nameC [rowOdin]) nameC [rowOdin])
      (load_current_file [] nameC [rowOdin]) ∧
    load_history_file (load_history_file [] nameH [rowHist]) nameH [rowHist] =
      load_history_file [] nameH [rowHist] :=
  ⟨(c1_import_idempotent nameC [rowOdin] [] [] (Or.inl (by decide))
      List.Pairwise.nil).1,
   (c1_import_idempotent nameH [rowHist] [] [] (Or.inr (by decide))
      List.Pairwise.nil).2⟩

/-- C2 witness: two rows for the same key in one file, over a store holding
a legacy-attributed row for that key; the later row's odds win. -/
theorem c2_witness :
    ∃ rK : CurrentRow,
      (([rowOdin, rowOdin2].map (normCurrentRow
            (yyyymmdd_to_iso ['2', '0', '2', '6', '0', '1', '0', '1'])
            (String.mk ['1']) nameC)).filter
          (fun x => decide (currentKey x = ("2026-01-01", "1", "Odin")))).getLast? =
        some rK ∧
      (load_current_file [legacyOdinRow] nameC [rowOdin, rowOdin2]).filter
        (fun x => decide (currentKey x = ("2026-01-01", "1", "Odin"))) = [rK] ∧
      rK ∈ [rowOdin, rowOdin2].map (normCurrentRow
        (yyyymmdd_to_iso ['2', '0', '2', '6', '0', '1', '0', '1'])
        (String.mk ['1']) nameC) ∧
      rK.source_file = nameC :=
  c2_upsert_latest nameC ['2', '0', '2', '6', '0', '1', '0', '1'] '1'
    [rowOdin, rowOdin2] [legacyOdinRow] (by decide)
    (List.pairwise_singleton _ _) ("2026-01-01", "1", "Odin") (by decide)

/-- C3 witness: the legacy aliases of concrete names, and supersession of a
stored legacy-attributed row. -/
theorem c3_witness :
    legacyCurrentName nameC = "v86_20260101_1.csv" ∧
    legacyHistoryName nameH = "v86_history_20260101_1.csv" ∧
    (∀ x ∈ load_current_file [legacyOdinRow] nameC [rowOdin],
      x.source_file ≠ legacyCurrentName nameC) ∧
    (∃ x ∈ load_current_file [legacyOdinRow] nameC [rowOdin],
      currentKey x = ("2026-01-01", "1", "Odin")) := by
  have h := c3_legacy_supersession nameC nameH
    ['2', '0', '2', '6', '0', '1', '0', '1']
    ['2', '0', '2', '6', '0', '1', '0', '1'] '1' '1' (by decide) (by decide)
  refine ⟨?_, ?_, fun x hx => h.2.2.1 [legacyOdinRow] [rowOdin] x hx, ?_⟩
  · rw [h.1.2]
    decide
  · rw [h.2.1.2]
    decide
  · obtain ⟨x, hx1, hx2⟩ := h.2.2.2.1 [legacyOdinRow] [rowOdin]
      (List.pairwise_singleton _ _)
      (normCurrentRow (yyyymmdd_to_iso ['2', '0', '2', '6', '0', '1', '0', '1'])
        (String.mk ['1']) nameC rowOdin) (by decide)
    refine ⟨x, hx1, ?_⟩
    rw [hx2]
    decide

/-- C4 witness: re-import of one history file and import of a second one. -/
theorem c4_witness :
    load_history_file (load_history_file [] nameH [rowHist]) nameH [rowHist] =
      load_history_file [] nameH [rowHist] ∧
    (load_history_file (load_history_file [] nameH [rowHist]) nameH2 [rowHist]).filter
        (fun x => decide (x.source_file = nameH)) =
      [rowHist].map (normHistoryRow (String.mk ['1']) nameH) ∧
    (load_history_file (load_history_file [] nameH [rowHist]) nameH2 [rowHist]).filter
        (fun x => decide (x.source_file = nameH2)) =
      [rowHist].map (normHistoryRow (String.mk ['2']) nameH2) := by
  have h := c4_history_append nameH nameH2
    ['2', '0', '2', '6', '0', '1', '0', '1']
    ['2', '0', '2', '6', '0', '1', '0', '2'] '1' '2'
    (by decide) (by decide) (by decide) [] [rowHist] [rowHist]
  exact ⟨h.1, h.2.2.1, h.2.2.2⟩

/-- C5 witness: one horse with two fetched results and cap 1. -/
theorem c5_witness :
    (collect_history_rows [sOdin] 1).filter
        (fun r => decide (r.hastnamn = effName sOdin 1)) =
      (sortByDatumDesc (sOdin.results.map (buildRow (effName sOdin 1)))).take 1 ∧
    ((collect_history_rows [sOdin] 1).map (fun r => r.hastnamn)).Pairwise (· ≤ ·) := by
  have h := c5_retention_policy [sOdin] 1 (by decide) (by decide) sOdin 1
    (List.mem_cons_self _ _) rfl (by decide)
  exact ⟨h.1, h.2.2.2.2.2.1⟩

/-- C6 witness: one recognized but unreadable file aborts the run and leaves
the store unchanged. -/
theorem c6_witness :
    (∃ e, runBody ⟨[], []⟩ [badEntry] false = .error e) ∧
    mainRun ⟨[], []⟩ [badEntry] false = ⟨[], []⟩ :=
  c6_atomic_on_parse_failure ⟨[], []⟩ [badEntry] badEntry
    (List.mem_cons_self _ _) rfl (Or.inl (by decide)) rfl

/-- C7 witness: an invalid calendar date is accepted, as is a name with one
trailing newline; the ISO conversion is pure slicing. -/
theorem c7_witness :
    specCurrentNameRe ("v85_20261399_1.csv".toList) ∧
    specCurrentNameRe ("v85_20260101_1.csv\n".toList) ∧
    specHistoryNameRe ("v85_history_20260101_8.csv".toList) ∧
    yyyymmdd_to_iso ['2', '0', '2', '6', '1', '3', '9', '9'] =
      String.mk ['2', '0', '2', '6', '-', '1', '3', '-', '9', '9'] :=
  ⟨((c7_name_recognition_amended "v85_20261399_1.csv").1).mp (by decide),
   ((c7_name_recognition_amended "v85_20260101_1.csv\n").1).mp (by decide),
   ((c7_name_recognition_amended "v85_history_20260101_8.csv").2.1).mp (by decide),
   (c7_name_recognition_amended "v85_20261399_1.csv").2.2
     '2' '0' '2' '6' '1' '3' '9' '9'⟩

/-- C8 witness: a junk-named unreadable file changes nothing, and the
processed-file count of one junk plus one valid Current file is 1. -/
theorem c8_witness :
    runBody ⟨[], []⟩ ([] ++ junkEntry :: [goodEntry]) false =
      runBody ⟨[], []⟩ ([] ++ [goodEntry]) false ∧
    (load_current [] [junkEntry, goodEntry]).map (fun st => st.2.1) =
      Except.ok 1 :=
  ⟨(c8_unrecognized_skipped ⟨[], []⟩ [] [goodEntry] junkEntry false
      (by decide) (by decide)).2.2,
   rfl⟩

/-- C9 witness: a present value is the defaulted lookup; a missing label
normalizes to the empty string. -/
theorem c9_witness :
    rawGet [("hästnamn", some " Odin ")] "hästnamn" =
      ((List.lookup "hästnamn" [("hästnamn", some " Odin ")]).join).getD "" ∧
    rawGet ([] : RawRow) "kusk" = "" :=
  ⟨(c9_normalizer_total "2026-01-01" "1" nameC).1 _ _,
   (c9_normalizer_total "2026-01-01" "1" nameC).2.1 ([] : RawRow) "kusk" rfl⟩

/-- C10 witness: after importing over a legacy-attributed row, every row is
either that old row or attributed to the file's own name. -/
theorem c10_witness :
    (∀ x ∈ load_current_file [legacyOdinRow] nameC [rowOdin],
      x ∈ [legacyOdinRow] ∨ x.source_file = nameC) ∧
    legacyCurrentName nameC ≠ nameC := by
  have h := c10_attribution_invariant nameC nameH
    ['2', '0', '2', '6', '0', '1', '0', '1']
    ['2', '0', '2', '6', '0', '1', '0', '1'] '1' '1' (by decide) (by decide)
  exact ⟨fun x hx => h.2.2.1 _ _ x hx, h.1⟩

end V85
